import Mathlib

/-
Shallow embedding of the 3D chess engine (chess3d-core.py) and its
minimax/alpha-beta AI (ai-engine.py).

Modelling conventions:
- The numpy 3x8x8 object array is modelled as a total function
  `Position → Option Piece`; all board accesses performed by the source are
  in bounds whenever the queried position is in bounds, so the values of the
  function outside the 3x8x8 box are never consulted by the embedded code.
- Python ints are `Int`.
- Methods that mutate `self` and return a bool are modelled as functions
  `Chess3D → ... → Bool × Chess3D` returning the flag and the new state.
- The move-history list is kept most-recent-first (Python appends to and
  pops from the tail; only the stack order matters and it is preserved).
- `random.shuffle` at the search root is modelled by quantifying over the
  (permuted) list of root moves.
- Python floats appear in the search only as `-inf`, `+inf` and integer
  scores; they are modelled by the three-constructor type `Val`.
- `time.time()` / `time_limit` instrumentation is omitted: every claim under
  study fixes `time_limit = None`, for which the time checks in the source
  are no-ops; `nodes_evaluated` never influences any result.
-/

inductive PieceType where
  | pawn
  | knight
  | bishop
  | rook
  | queen
  | king
deriving DecidableEq

inductive Color where
  | white
  | black
deriving DecidableEq

structure Piece where
  type : PieceType
  color : Color
deriving DecidableEq

structure Position where
  level : Int
  rank : Int
  file : Int
deriving DecidableEq

structure Move where
  from_pos : Position
  to_pos : Position
  promotion : Option PieceType
deriving DecidableEq

/-- Board contents, current player and move history of a `Chess3D` game. -/
structure Chess3D where
  board : Position → Option Piece
  current_player : Color
  move_history : List (Move × Option Piece)

def Chess3D.get_piece (g : Chess3D) (pos : Position) : Option Piece :=
  g.board pos

def set_piece (b : Position → Option Piece) (pos : Position) (piece : Option Piece) :
    Position → Option Piece :=
  fun q => if q = pos then piece else b q

def is_valid_position (pos : Position) : Bool :=
  decide (0 ≤ pos.level) && decide (pos.level < 3) &&
  decide (0 ≤ pos.rank) && decide (pos.rank < 8) &&
  decide (0 ≤ pos.file) && decide (pos.file < 8)

/-- Order piece list of the back rank in `setup_standard_board`. -/
def piece_order : List PieceType :=
  [PieceType.rook, PieceType.knight, PieceType.bishop, PieceType.queen,
   PieceType.king, PieceType.bishop, PieceType.knight, PieceType.rook]

/-- Board produced by `reset`/`setup_pieces`: white on level 0 (back rank 0,
pawns rank 1), black on level 2 (back rank 7, pawns rank 6), level 1 empty. -/
def setup_board : Position → Option Piece := fun p =>
  if p.level = 0 then
    if p.rank = 0 then some ⟨piece_order.getD p.file.toNat PieceType.rook, Color.white⟩
    else if p.rank = 1 then some ⟨PieceType.pawn, Color.white⟩
    else none
  else if p.level = 2 then
    if p.rank = 7 then some ⟨piece_order.getD p.file.toNat PieceType.rook, Color.black⟩
    else if p.rank = 6 then some ⟨PieceType.pawn, Color.black⟩
    else none
  else none

def initial_game : Chess3D :=
  { board := setup_board, current_player := Color.white, move_history := [] }

/-- Pawn move generation (`_get_pawn_moves`). -/
def get_pawn_moves (g : Chess3D) (pos : Position) (piece : Piece) : List Move :=
  let direction : Int := if piece.color = Color.white then 1 else -1
  let start_rank : Int := if piece.color = Color.white then 1 else 6
  let fwd : Position := ⟨pos.level, pos.rank + direction, pos.file⟩
  let forward_moves :=
    if is_valid_position fwd && (g.get_piece fwd).isNone then
      (if (fwd.rank = 7 ∧ piece.color = Color.white) ∨
          (fwd.rank = 0 ∧ piece.color = Color.black) then
        [Move.mk pos fwd (some PieceType.queen), Move.mk pos fwd (some PieceType.rook),
         Move.mk pos fwd (some PieceType.bishop), Move.mk pos fwd (some PieceType.knight)]
      else [Move.mk pos fwd none]) ++
      (if pos.rank = start_rank then
        let fwd2 : Position := ⟨pos.level, pos.rank + 2 * direction, pos.file⟩
        if is_valid_position fwd2 && (g.get_piece fwd2).isNone then [Move.mk pos fwd2 none]
        else []
      else [])
    else []
  let cap : Int → List Move := fun file_offset =>
    let np : Position := ⟨pos.level, pos.rank + direction, pos.file + file_offset⟩
    if is_valid_position np then
      match g.get_piece np with
      | some target =>
        if target.color ≠ piece.color then
          if (np.rank = 7 ∧ piece.color = Color.white) ∨
             (np.rank = 0 ∧ piece.color = Color.black) then
            [Move.mk pos np (some PieceType.queen), Move.mk pos np (some PieceType.rook),
             Move.mk pos np (some PieceType.bishop), Move.mk pos np (some PieceType.knight)]
          else [Move.mk pos np none]
        else []
      | none => []
    else []
  forward_moves ++ cap (-1) ++ cap 1

def knight_offsets : List (Int × Int) :=
  [(2, 1), (1, 2), (-1, 2), (-2, 1), (-2, -1), (-1, -2), (1, -2), (2, -1)]

/-- Knight move generation (`_get_knight_moves`). -/
def get_knight_moves (g : Chess3D) (pos : Position) (piece : Piece) : List Move :=
  knight_offsets.flatMap fun o =>
    let np : Position := ⟨pos.level, pos.rank + o.1, pos.file + o.2⟩
    if is_valid_position np then
      match g.get_piece np with
      | none => [Move.mk pos np none]
      | some target => if target.color ≠ piece.color then [Move.mk pos np none] else []
    else []

/-- One direction of `_get_sliding_moves`: the Python loop over
`distance in range(1, 8)` starting at `distance`, with `fuel` iterations
remaining (called with `distance = 1`, `fuel = 7`). -/
def slide_from (g : Chess3D) (pos : Position) (piece : Piece) (d : Int × Int) :
    Nat → Nat → List Move
  | _, 0 => []
  | distance, fuel + 1 =>
    let np : Position := ⟨pos.level, pos.rank + d.1 * (distance : Int),
                          pos.file + d.2 * (distance : Int)⟩
    if is_valid_position np then
      match g.get_piece np with
      | none => Move.mk pos np none :: slide_from g pos piece d (distance + 1) fuel
      | some target =>
        if target.color ≠ piece.color then [Move.mk pos np none] else []
    else []

def get_sliding_moves (g : Chess3D) (pos : Position) (piece : Piece)
    (directions : List (Int × Int)) : List Move :=
  directions.flatMap fun d => slide_from g pos piece d 1 7

def get_bishop_moves (g : Chess3D) (pos : Position) (piece : Piece) : List Move :=
  get_sliding_moves g pos piece [(1, 1), (1, -1), (-1, 1), (-1, -1)]

def get_rook_moves (g : Chess3D) (pos : Position) (piece : Piece) : List Move :=
  get_sliding_moves g pos piece [(0, 1), (1, 0), (0, -1), (-1, 0)]

def get_queen_moves (g : Chess3D) (pos : Position) (piece : Piece) : List Move :=
  get_sliding_moves g pos piece
    [(0, 1), (1, 0), (0, -1), (-1, 0), (1, 1), (1, -1), (-1, 1), (-1, -1)]

def king_directions : List (Int × Int) :=
  [(0, 1), (1, 0), (0, -1), (-1, 0), (1, 1), (1, -1), (-1, 1), (-1, -1)]

/-- King move generation (`_get_king_moves`). -/
def get_king_moves (g : Chess3D) (pos : Position) (piece : Piece) : List Move :=
  king_directions.flatMap fun d =>
    let np : Position := ⟨pos.level, pos.rank + d.1, pos.file + d.2⟩
    if is_valid_position np then
      match g.get_piece np with
      | none => [Move.mk pos np none]
      | some target => if target.color ≠ piece.color then [Move.mk pos np none] else []
    else []

def diag_offsets : List (Int × Int) := [(1, 1), (1, -1), (-1, 1), (-1, -1)]

/-- Inter-level moves (`_get_3d_moves`).  Note the `elif` chain of the source:
a queen is caught by the bishop-or-queen diagonal branch, so the
rook-or-queen vertical branch is reachable only for rooks. -/
def get_3d_moves (g : Chess3D) (pos : Position) (piece : Piece) : List Move :=
  if piece.type = PieceType.knight then
    let level_offsets : List Int :=
      (if pos.level < 2 then [1] else []) ++ (if pos.level > 0 then [-1] else [])
    level_offsets.flatMap fun level_offset =>
      diag_offsets.flatMap fun o =>
        let np : Position := ⟨pos.level + level_offset, pos.rank + o.1, pos.file + o.2⟩
        if is_valid_position np then
          match g.get_piece np with
          | none => [Move.mk pos np none]
          | some target => if target.color ≠ piece.color then [Move.mk pos np none] else []
        else []
  else if piece.type = PieceType.bishop ∨ piece.type = PieceType.queen then
    (if pos.level < 2 then
      diag_offsets.flatMap fun o =>
        let np : Position := ⟨pos.level + 1, pos.rank + o.1, pos.file + o.2⟩
        if is_valid_position np then
          match g.get_piece np with
          | none => [Move.mk pos np none]
          | some target => if target.color ≠ piece.color then [Move.mk pos np none] else []
        else []
    else []) ++
    (if pos.level > 0 then
      diag_offsets.flatMap fun o =>
        let np : Position := ⟨pos.level - 1, pos.rank + o.1, pos.file + o.2⟩
        if is_valid_position np then
          match g.get_piece np with
          | none => [Move.mk pos np none]
          | some target => if target.color ≠ piece.color then [Move.mk pos np none] else []
        else []
    else [])
  else if piece.type = PieceType.rook ∨ piece.type = PieceType.queen then
    (if pos.level < 2 then
      let np : Position := ⟨pos.level + 1, pos.rank, pos.file⟩
      match g.get_piece np with
      | none => [Move.mk pos np none]
      | some target => if target.color ≠ piece.color then [Move.mk pos np none] else []
    else []) ++
    (if pos.level > 0 then
      let np : Position := ⟨pos.level - 1, pos.rank, pos.file⟩
      match g.get_piece np with
      | none => [Move.mk pos np none]
      | some target => if target.color ≠ piece.color then [Move.mk pos np none] else []
    else [])
  else []

/-- `get_valid_moves`: dispatch on piece type, then append the 3D moves. -/
def get_valid_moves (g : Chess3D) (pos : Position) : List Move :=
  match g.get_piece pos with
  | none => []
  | some piece =>
    (match piece.type with
     | PieceType.pawn => get_pawn_moves g pos piece
     | PieceType.knight => get_knight_moves g pos piece
     | PieceType.bishop => get_bishop_moves g pos piece
     | PieceType.rook => get_rook_moves g pos piece
     | PieceType.queen => get_queen_moves g pos piece
     | PieceType.king => get_king_moves g pos piece) ++
    get_3d_moves g pos piece

def other_color : Color → Color
  | Color.white => Color.black
  | Color.black => Color.white

/-- `make_move`: returns the Python bool together with the state after the
call (the unchanged state on failure). -/
def make_move (g : Chess3D) (move : Move) : Bool × Chess3D :=
  match g.get_piece move.from_pos with
  | none => (false, g)
  | some piece =>
    if piece.color ≠ g.current_player then (false, g)
    else if move ∉ get_valid_moves g move.from_pos then (false, g)
    else
      let captured_piece := g.get_piece move.to_pos
      let b1 := set_piece g.board move.to_pos (some piece)
      let b1 := set_piece b1 move.from_pos none
      let b1 :=
        match move.promotion with
        | some promo =>
          if piece.type = PieceType.pawn ∧
             ((piece.color = Color.white ∧ move.to_pos.rank = 7) ∨
              (piece.color = Color.black ∧ move.to_pos.rank = 0)) then
            set_piece b1 move.to_pos (some ⟨promo, piece.color⟩)
          else b1
        | none => b1
      (true,
       { board := b1,
         current_player :=
           if g.current_player = Color.white then Color.black else Color.white,
         move_history := (move, captured_piece) :: g.move_history })

/-- `undo_move`: pops the last (move, captured) pair and reverses it. -/
def undo_move (g : Chess3D) : Bool × Chess3D :=
  match g.move_history with
  | [] => (false, g)
  | (move, captured_piece) :: rest =>
    let piece := g.get_piece move.to_pos
    let b1 := set_piece g.board move.from_pos piece
    let b1 := set_piece b1 move.to_pos captured_piece
    (true,
     { board := b1,
       current_player :=
         if g.current_player = Color.white then Color.black else Color.white,
       move_history := rest })

/-- All in-bounds positions in the (level, rank, file) scan order used by
every triple loop of the source. -/
def allPositions : List Position :=
  (List.range 3).flatMap fun (level : Nat) =>
    (List.range 8).flatMap fun (rank : Nat) =>
      (List.range 8).map fun (file : Nat) =>
        ⟨(level : Int), (rank : Int), (file : Int)⟩

/-- `is_check`: find the first king of `color` in scan order; with no king,
report not-in-check; otherwise test whether any opponent move targets it. -/
def is_check (g : Chess3D) (color : Color) : Bool :=
  match allPositions.find? (fun p =>
      match g.board p with
      | some piece => decide (piece.type = PieceType.king ∧ piece.color = color)
      | none => false) with
  | none => false
  | some king_pos =>
    allPositions.any fun pos =>
      match g.get_piece pos with
      | some piece =>
        decide (piece.color = other_color color) &&
        (get_valid_moves g pos).any fun move => decide (move.to_pos = king_pos)
      | none => false

/-- Inner loop of `is_checkmate` over one piece's move list, threading the
mutated state: each trial relocates the piece by direct cell mutation,
re-tests `is_check`, restores the two cells, and returns early (checkmate
false) when the trial escapes check.  `none` means fall through. -/
def cm_moves (color : Color) (pos : Position) (piece : Piece) :
    List Move → Chess3D → Option Bool × Chess3D
  | [], g => (none, g)
  | move :: rest, g =>
    let captured_piece := g.get_piece move.to_pos
    let b1 := set_piece g.board move.to_pos (some piece)
    let b1 := set_piece b1 pos none
    let still_in_check := is_check { g with board := b1 } color
    let b2 := set_piece b1 pos (some piece)
    let b2 := set_piece b2 move.to_pos captured_piece
    let g1 : Chess3D := { g with board := b2 }
    if still_in_check then cm_moves color pos piece rest g1 else (some false, g1)

/-- Outer loop of `is_checkmate` over the position scan. -/
def cm_pos (color : Color) : List Position → Chess3D → Option Bool × Chess3D
  | [], g => (none, g)
  | pos :: rest, g =>
    match g.get_piece pos with
    | some piece =>
      if piece.color = color then
        match cm_moves color pos piece (get_valid_moves g pos) g with
        | (some r, g1) => (some r, g1)
        | (none, g1) => cm_pos color rest g1
      else cm_pos color rest g
    | none => cm_pos color rest g

/-- `is_checkmate` with its state threaded explicitly (the source mutates the
board in place during the hypothetical trials). -/
def is_checkmate_impl (g : Chess3D) (color : Color) : Bool × Chess3D :=
  if is_check g color then
    match cm_pos color allPositions g with
    | (some r, g1) => (r, g1)
    | (none, g1) => (true, g1)
  else (false, g)

def is_checkmate (g : Chess3D) (color : Color) : Bool :=
  (is_checkmate_impl g color).1

def PIECE_VALUES : PieceType → Int
  | PieceType.pawn => 100
  | PieceType.knight => 320
  | PieceType.bishop => 330
  | PieceType.rook => 500
  | PieceType.queen => 900
  | PieceType.king => 20000

def PAWN_TABLE : List (List Int) :=
  [[0, 0, 0, 0, 0, 0, 0, 0],
   [50, 50, 50, 50, 50, 50, 50, 50],
   [10, 10, 20, 30, 30, 20, 10, 10],
   [5, 5, 10, 25, 25, 10, 5, 5],
   [0, 0, 0, 20, 20, 0, 0, 0],
   [5, -5, -10, 0, 0, -10, -5, 5],
   [5, 10, 10, -20, -20, 10, 10, 5],
   [0, 0, 0, 0, 0, 0, 0, 0]]

def KNIGHT_TABLE : List (List Int) :=
  [[-50, -40, -30, -30, -30, -30, -40, -50],
   [-40, -20, 0, 0, 0, 0, -20, -40],
   [-30, 0, 10, 15, 15, 10, 0, -30],
   [-30, 5, 15, 20, 20, 15, 5, -30],
   [-30, 0, 15, 20, 20, 15, 0, -30],
   [-30, 5, 10, 15, 15, 10, 5, -30],
   [-40, -20, 0, 5, 5, 0, -20, -40],
   [-50, -40, -30, -30, -30, -30, -40, -50]]

def BISHOP_TABLE : List (List Int) :=
  [[-20, -10, -10, -10, -10, -10, -10, -20],
   [-10, 0, 0, 0, 0, 0, 0, -10],
   [-10, 0, 10, 10, 10, 10, 0, -10],
   [-10, 5, 5, 10, 10, 5, 5, -10],
   [-10, 0, 5, 10, 10, 5, 0, -10],
   [-10, 5, 5, 5, 5, 5, 5, -10],
   [-10, 0, 5, 0, 0, 5, 0, -10],
   [-20, -10, -10, -10, -10, -10, -10, -20]]

def ROOK_TABLE : List (List Int) :=
  [[0, 0, 0, 0, 0, 0, 0, 0],
   [5, 10, 10, 10, 10, 10, 10, 5],
   [-5, 0, 0, 0, 0, 0, 0, -5],
   [-5, 0, 0, 0, 0, 0, 0, -5],
   [-5, 0, 0, 0, 0, 0, 0, -5],
   [-5, 0, 0, 0, 0, 0, 0, -5],
   [-5, 0, 0, 0, 0, 0, 0, -5],
   [0, 0, 0, 5, 5, 0, 0, 0]]

def QUEEN_TABLE : List (List Int) :=
  [[-20, -10, -10, -5, -5, -10, -10, -20],
   [-10, 0, 0, 0, 0, 0, 0, -10],
   [-10, 0, 5, 5, 5, 5, 0, -10],
   [-5, 0, 5, 5, 5, 5, 0, -5],
   [0, 0, 5, 5, 5, 5, 0, -5],
   [-10, 5, 5, 5, 5, 5, 0, -10],
   [-10, 0, 5, 0, 0, 0, 0, -10],
   [-20, -10, -10, -5, -5, -10, -10, -20]]

def KING_MIDDLE_TABLE : List (List Int) :=
  [[-30, -40, -40, -50, -50, -40, -40, -30],
   [-30, -40, -40, -50, -50, -40, -40, -30],
   [-30, -40, -40, -50, -50, -40, -40, -30],
   [-30, -40, -40, -50, -50, -40, -40, -30],
   [-20, -30, -30, -40, -40, -30, -30, -20],
   [-10, -20, -20, -20, -20, -20, -20, -10],
   [20, 20, 0, 0, 0, 0, 20, 20],
   [20, 30, 10, 0, 0, 10, 30, 20]]

def KING_END_TABLE : List (List Int) :=
  [[-50, -40, -30, -20, -20, -30, -40, -50],
   [-30, -20, -10, 0, 0, -10, -20, -30],
   [-30, -10, 20, 30, 30, 20, -10, -30],
   [-30, -10, 30, 40, 40, 30, -10, -30],
   [-30, -10, 30, 40, 40, 30, -10, -30],
   [-30, -10, 20, 30, 30, 20, -10, -30],
   [-30, -30, 0, 0, 0, 0, -30, -30],
   [-50, -30, -30, -30, -30, -30, -30, -50]]

/-- Row-then-column indexing `TABLE[rank_mirror][file]` of the 8x8 tables. -/
def tableAt (t : List (List Int)) (r f : Int) : Int :=
  (t.getD r.toNat []).getD f.toNat 0

/-- `evaluate_position` (ai-engine.py): terminal checkmate scores, material,
piece-square tables, middle-level bonus, mobility, and check bonuses. -/
def evaluate_position (g : Chess3D) : Int :=
  if is_checkmate g Color.white then -10000
  else if is_checkmate g Color.black then 10000
  else
    let piece_count : Nat := allPositions.countP fun p =>
      match g.get_piece p with
      | some piece => decide (piece.type ≠ PieceType.king)
      | none => false
    let is_endgame : Bool := piece_count ≤ 10
    let score := allPositions.foldl (fun (score : Int) p =>
      match g.get_piece p with
      | none => score
      | some piece =>
        let value := PIECE_VALUES piece.type
        let rank_mirror : Int := if piece.color = Color.black then 7 - p.rank else p.rank
        let value := value +
          (match piece.type with
           | PieceType.pawn => tableAt PAWN_TABLE rank_mirror p.file
           | PieceType.knight => tableAt KNIGHT_TABLE rank_mirror p.file
           | PieceType.bishop => tableAt BISHOP_TABLE rank_mirror p.file
           | PieceType.rook => tableAt ROOK_TABLE rank_mirror p.file
           | PieceType.queen => tableAt QUEEN_TABLE rank_mirror p.file
           | PieceType.king =>
             if is_endgame then tableAt KING_END_TABLE rank_mirror p.file
             else tableAt KING_MIDDLE_TABLE rank_mirror p.file)
        let value := if p.level = 1 then value + 10 else value
        if piece.color = Color.white then score + value else score - value) 0
    let mobility := allPositions.foldl (fun (wb : Int × Int) p =>
      match g.get_piece p with
      | none => wb
      | some piece =>
        if piece.color = Color.white then
          (wb.1 + ((get_valid_moves g p).length : Int), wb.2)
        else (wb.1, wb.2 + ((get_valid_moves g p).length : Int))) (0, 0)
    let score := score + (mobility.1 - mobility.2) * 2
    let score := if is_check g Color.white then score - 50 else score
    let score := if is_check g Color.black then score + 50 else score
    score

/-- Search scores: Python floats occur in the engine only as `-inf`, `+inf`
and exact integer values. -/
inductive Val where
  | ninf
  | fin (n : Int)
  | pinf
deriving DecidableEq

/-- Python `<=` on the scores. -/
def vle : Val → Val → Bool
  | Val.ninf, _ => true
  | _, Val.pinf => true
  | Val.fin a, Val.fin b => decide (a ≤ b)
  | _, Val.ninf => false
  | Val.pinf, Val.fin _ => false

/-- Python `<` on the scores. -/
def vlt : Val → Val → Bool
  | Val.ninf, Val.ninf => false
  | Val.ninf, _ => true
  | Val.fin a, Val.fin b => decide (a < b)
  | Val.fin _, Val.pinf => true
  | _, _ => false

/-- Python `max` on the scores. -/
def vmax (a b : Val) : Val := if vle a b then b else a

/-- Python `min` on the scores. -/
def vmin (a b : Val) : Val := if vle a b then a else b

instance : LE Val := ⟨fun a b => vle a b = true⟩

instance : LT Val := ⟨fun a b => vlt a b = true⟩

instance Val.decidableLE : @DecidableRel Val (· ≤ ·) := fun a b =>
  inferInstanceAs (Decidable (vle a b = true))

instance Val.decidableLT : @DecidableRel Val (· < ·) := fun a b =>
  inferInstanceAs (Decidable (vlt a b = true))

instance : LinearOrder Val where
  le_refl a := by
    show vle a a = true
    cases a <;> simp [vle]
  le_trans a b c h1 h2 := by
    replace h1 : vle a b = true := h1
    replace h2 : vle b c = true := h2
    show vle a c = true
    cases a <;> cases b <;> cases c <;> simp_all [vle] <;> omega
  le_antisymm a b h1 h2 := by
    replace h1 : vle a b = true := h1
    replace h2 : vle b a = true := h2
    cases a <;> cases b <;> simp_all [vle] <;> omega
  le_total a b := by
    show vle a b = true ∨ vle b a = true
    cases a <;> cases b <;> simp [vle] <;> omega
  lt_iff_le_not_le a b := by
    show vlt a b = true ↔ vle a b = true ∧ ¬ vle b a = true
    cases a <;> cases b <;> simp [vle, vlt] <;> omega
  decidableLE := Val.decidableLE
  decidableLT := Val.decidableLT

/-- Moves of every piece of color `c`, enumerated in the (level, rank, file)
scan order used by `get_best_move` and by both `minimax` branches. -/
def legal_moves_for (g : Chess3D) (c : Color) : List Move :=
  allPositions.flatMap fun pos =>
    match g.get_piece pos with
    | some piece => if piece.color = c then get_valid_moves g pos else []
    | none => []

/-- Inner move loop of the maximizing branch of `minimax`: apply, recurse,
undo, fold `max`, raise alpha, and cut (flag `true`) once `beta <= alpha`. -/
def mm_max_moves (child : Chess3D → Val → Val → Val × Chess3D) (beta : Val) :
    List Move → Val → Val → Chess3D → Val × Val × Chess3D × Bool
  | [], value, alpha, g => (value, alpha, g, false)
  | move :: rest, value, alpha, g =>
    let g1 := (make_move g move).2
    let vg := child g1 alpha beta
    let g2 := (undo_move vg.2).2
    let value1 := vmax value vg.1
    let alpha1 := vmax alpha value1
    if vle beta alpha1 then (value1, alpha1, g2, true)
    else mm_max_moves child beta rest value1 alpha1 g2

/-- Position scan of the maximizing branch of `minimax`. -/
def mm_max_pos (child : Chess3D → Val → Val → Val × Chess3D) (beta : Val) :
    List Position → Val → Val → Chess3D → Val × Chess3D
  | [], value, _, g => (value, g)
  | pos :: rest, value, alpha, g =>
    match g.get_piece pos with
    | some piece =>
      if piece.color = Color.white then
        match mm_max_moves child beta (get_valid_moves g pos) value alpha g with
        | (value1, alpha1, g1, cut) =>
          if cut then (value1, g1) else mm_max_pos child beta rest value1 alpha1 g1
      else mm_max_pos child beta rest value alpha g
    | none => mm_max_pos child beta rest value alpha g

/-- Inner move loop of the minimizing branch of `minimax`. -/
def mm_min_moves (child : Chess3D → Val → Val → Val × Chess3D) (alpha : Val) :
    List Move → Val → Val → Chess3D → Val × Val × Chess3D × Bool
  | [], value, beta, g => (value, beta, g, false)
  | move :: rest, value, beta, g =>
    let g1 := (make_move g move).2
    let vg := child g1 alpha beta
    let g2 := (undo_move vg.2).2
    let value1 := vmin value vg.1
    let beta1 := vmin beta value1
    if vle beta1 alpha then (value1, beta1, g2, true)
    else mm_min_moves child alpha rest value1 beta1 g2

/-- Position scan of the minimizing branch of `minimax`. -/
def mm_min_pos (child : Chess3D → Val → Val → Val × Chess3D) (alpha : Val) :
    List Position → Val → Val → Chess3D → Val × Chess3D
  | [], value, _, g => (value, g)
  | pos :: rest, value, beta, g =>
    match g.get_piece pos with
    | some piece =>
      if piece.color = Color.black then
        match mm_min_moves child alpha (get_valid_moves g pos) value beta g with
        | (value1, beta1, g1, cut) =>
          if cut then (value1, g1) else mm_min_pos child alpha rest value1 beta1 g1
      else mm_min_pos child alpha rest value beta g
    | none => mm_min_pos child alpha rest value beta g

/-- `ChessAI.minimax` with `time_limit = None`, threading the mutated game
state; returns the score together with the state left behind by the call. -/
def minimax : Chess3D → Nat → Val → Val → Bool → Val × Chess3D
  | g, 0, _, _, _ => (Val.fin (evaluate_position g), g)
  | g, depth + 1, alpha, beta, true =>
    mm_max_pos (fun g1 a b => minimax g1 depth a b false) beta allPositions Val.ninf alpha g
  | g, depth + 1, alpha, beta, false =>
    mm_min_pos (fun g1 a b => minimax g1 depth a b true) alpha allPositions Val.pinf beta g

/-- Exhaustive minimax over the same move enumeration, with no alpha-beta
bounds and no state threading: the unpruned reference the spec compares the
search against. -/
def minimax_ref : Nat → Chess3D → Bool → Val
  | 0, g, _ => Val.fin (evaluate_position g)
  | depth + 1, g, maximizing =>
    if maximizing then
      ((legal_moves_for g Color.white).map fun m =>
        minimax_ref depth (make_move g m).2 false).foldl vmax Val.ninf
    else
      ((legal_moves_for g Color.black).map fun m =>
        minimax_ref depth (make_move g m).2 true).foldl vmin Val.pinf

/-- Root loop of `get_best_move` for White: track the strictly-best move and
value, then raise alpha (the nonstandard root-level bound carried across
siblings). -/
def gbm_white_loop (depth : Nat) :
    List Move → Option Move → Val → Val → Val → Chess3D → Option Move × Val × Chess3D
  | [], best_move, best_value, _, _, g => (best_move, best_value, g)
  | move :: rest, best_move, best_value, alpha, beta, g =>
    let g1 := (make_move g move).2
    let vg := minimax g1 depth alpha beta false
    let g2 := (undo_move vg.2).2
    let best1 := if vlt best_value vg.1 then (some move, vg.1) else (best_move, best_value)
    let alpha1 := vmax alpha vg.1
    gbm_white_loop depth rest best1.1 best1.2 alpha1 beta g2

/-- Root loop of `get_best_move` for Black. -/
def gbm_black_loop (depth : Nat) :
    List Move → Option Move → Val → Val → Val → Chess3D → Option Move × Val × Chess3D
  | [], best_move, best_value, _, _, g => (best_move, best_value, g)
  | move :: rest, best_move, best_value, alpha, beta, g =>
    let g1 := (make_move g move).2
    let vg := minimax g1 depth alpha beta true
    let g2 := (undo_move vg.2).2
    let best1 := if vlt vg.1 best_value then (some move, vg.1) else (best_move, best_value)
    let beta1 := vmin beta vg.1
    gbm_black_loop depth rest best1.1 best1.2 alpha beta1 g2

/-- `ChessAI.get_best_move` with `time_limit = None`: `ms` is the shuffled
root move list (a permutation of `legal_moves_for g color`); the root works
on a deep copy, so only the chosen move and its value are returned. -/
def get_best_move (g : Chess3D) (color : Color) (max_depth : Nat) (ms : List Move) :
    Option Move × Val :=
  if color = Color.white then
    let r := gbm_white_loop (max_depth - 1) ms none Val.ninf Val.ninf Val.pinf g
    (r.1, r.2.1)
  else
    let r := gbm_black_loop (max_depth - 1) ms none Val.pinf Val.ninf Val.pinf g
    (r.1, r.2.1)

/-- Root selection of the unpruned reference search: same enumeration and
same strict-improvement tracking, with children scored by `minimax_ref`. -/
def gbm_ref_white (g : Chess3D) (depth : Nat) :
    List Move → Option Move → Val → Option Move × Val
  | [], best_move, best_value => (best_move, best_value)
  | move :: rest, best_move, best_value =>
    let v := minimax_ref depth (make_move g move).2 false
    if vlt best_value v then gbm_ref_white g depth rest (some move) v
    else gbm_ref_white g depth rest best_move best_value

def gbm_ref_black (g : Chess3D) (depth : Nat) :
    List Move → Option Move → Val → Option Move × Val
  | [], best_move, best_value => (best_move, best_value)
  | move :: rest, best_move, best_value =>
    let v := minimax_ref depth (make_move g move).2 true
    if vlt v best_value then gbm_ref_black g depth rest (some move) v
    else gbm_ref_black g depth rest best_move best_value

/-- Unpruned reference of `get_best_move` over the same root move list. -/
def get_best_move_ref (g : Chess3D) (color : Color) (max_depth : Nat) (ms : List Move) :
    Option Move × Val :=
  if color = Color.white then gbm_ref_white g (max_depth - 1) ms none Val.ninf
  else gbm_ref_black g (max_depth - 1) ms none Val.pinf

/-- A destination cell is empty or holds a piece of the other color. -/
def empty_or_enemy (g : Chess3D) (c : Color) (p : Position) : Prop :=
  ∀ t, g.get_piece p = some t → t.color ≠ c

/-- Piece written by the promotion step of `make_move`, when it fires. -/
def promo_applied (g : Chess3D) (m : Move) : Option Piece :=
  match g.get_piece m.from_pos, m.promotion with
  | some piece, some promo =>
    if piece.type = PieceType.pawn ∧
       ((piece.color = Color.white ∧ m.to_pos.rank = 7) ∨
        (piece.color = Color.black ∧ m.to_pos.rank = 0)) then some ⟨promo, piece.color⟩
    else none
  | _, _ => none

/-- Empty board, White to move. -/
def empty_game : Chess3D := { board := fun _ => none, current_player := Color.white, move_history := [] }

/-- Lone white queen on the middle level. -/
def queen_game : Chess3D :=
  { board := fun p => if p = ⟨1, 3, 3⟩ then some ⟨PieceType.queen, Color.white⟩ else none,
    current_player := Color.white, move_history := [] }

/-- Lone white rook on the middle level. -/
def rook_game : Chess3D :=
  { board := fun p => if p = ⟨1, 3, 3⟩ then some ⟨PieceType.rook, Color.white⟩ else none,
    current_player := Color.white, move_history := [] }

/-- White king cornered on Aa1 by two black rooks: a genuine checkmate. -/
def mate_game : Chess3D :=
  { board := fun p =>
      if p = ⟨0, 0, 0⟩ then some ⟨PieceType.king, Color.white⟩
      else if p = ⟨0, 7, 0⟩ then some ⟨PieceType.rook, Color.black⟩
      else if p = ⟨0, 7, 1⟩ then some ⟨PieceType.rook, Color.black⟩
      else none,
    current_player := Color.white, move_history := [] }

/-- Mirror of `mate_game`: black king cornered by two white rooks. -/
def mate_game_black : Chess3D :=
  { board := fun p =>
      if p = ⟨0, 0, 0⟩ then some ⟨PieceType.king, Color.black⟩
      else if p = ⟨0, 7, 0⟩ then some ⟨PieceType.rook, Color.white⟩
      else if p = ⟨0, 7, 1⟩ then some ⟨PieceType.rook, Color.white⟩
      else none,
    current_player := Color.black, move_history := [] }

/-- Bound on pawn ranks at one cell: white pawns at rank at most `a`, black
pawns at rank at least `b` (proof device for the no-promotion argument). -/
def pawn_ok (g : Chess3D) (a b : Int) (p : Position) : Bool :=
  match g.board p with
  | some pc =>
    if pc.type = PieceType.pawn then
      if pc.color = Color.white then decide (p.rank ≤ a) else decide (b ≤ p.rank)
    else true
  | none => true

/-- All in-bounds pawns respect the rank bounds. -/
def pawns_bounded (g : Chess3D) (a b : Int) : Prop :=
  ∀ p ∈ allPositions, pawn_ok g a b p = true

instance pawns_bounded_decidable (g : Chess3D) (a b : Int) : Decidable (pawns_bounded g a b) :=
  inferInstanceAs (Decidable (∀ p ∈ allPositions, pawn_ok g a b p = true))

/-- A move of a piece of color `c` sitting on an in-bounds cell. -/
def legal_move_of (g : Chess3D) (c : Color) (m : Move) : Prop :=
  ∃ piece, g.get_piece m.from_pos = some piece ∧ piece.color = c ∧
    m ∈ get_valid_moves g m.from_pos ∧ m.from_pos ∈ allPositions

def side_of (maxi : Bool) : Color := if maxi then Color.white else Color.black

/-- Lone white pawn one step from promotion. -/
def promo_game : Chess3D :=
  { board := fun p => if p = ⟨0, 6, 0⟩ then some ⟨PieceType.pawn, Color.white⟩ else none,
    current_player := Color.white, move_history := [] }

/-- White pawn trapped behind a black rook that can block its only advance:
every depth-3 root line for White bottoms out in a position where White has
no moves. -/
def trap_game : Chess3D :=
  { board := fun p =>
      if p = ⟨0, 3, 4⟩ then some ⟨PieceType.pawn, Color.white⟩
      else if p = ⟨0, 5, 0⟩ then some ⟨PieceType.rook, Color.black⟩
      else none,
    current_player := Color.white, move_history := [] }

/-- One position's contribution to the move enumeration of the search. -/
def moves_at (g : Chess3D) (c : Color) (pos : Position) : List Move :=
  match g.get_piece pos with
  | some piece => if piece.color = c then get_valid_moves g pos else []
  | none => []

theorem Val.ninf_le (a : Val) : Val.ninf ≤ a := by cases a <;> exact rfl

theorem Val.le_pinf (a : Val) : a ≤ Val.pinf := by cases a <;> exact rfl

theorem set_piece_same (b : Position → Option Piece) (pos : Position) (v : Option Piece) :
    set_piece b pos v pos = v := by
  simp [set_piece]

theorem set_piece_other (b : Position → Option Piece) (pos q : Position) (v : Option Piece)
    (h : q ≠ pos) : set_piece b pos v q = b q := by
  simp [set_piece, h]

theorem valid_iff (p : Position) :
    is_valid_position p = true ↔
      0 ≤ p.level ∧ p.level < 3 ∧ 0 ≤ p.rank ∧ p.rank < 8 ∧ 0 ≤ p.file ∧ p.file < 8 := by
  simp [is_valid_position, and_assoc]

theorem mem_allPositions (p : Position) : p ∈ allPositions ↔ is_valid_position p = true := by
  constructor
  · intro h
    obtain ⟨a, ha, h⟩ := List.mem_flatMap.1 h
    obtain ⟨b, hb, h⟩ := List.mem_flatMap.1 h
    obtain ⟨c, hc, h⟩ := List.mem_map.1 h
    rw [List.mem_range] at ha hb hc
    subst h
    rw [valid_iff]
    dsimp only
    omega
  · intro h
    rw [valid_iff] at h
    refine List.mem_flatMap.2 ⟨p.level.toNat, List.mem_range.2 (by omega), ?_⟩
    refine List.mem_flatMap.2 ⟨p.rank.toNat, List.mem_range.2 (by omega), ?_⟩
    refine List.mem_map.2 ⟨p.file.toNat, List.mem_range.2 (by omega), ?_⟩
    obtain ⟨l, r, f⟩ := p
    simp only [Position.mk.injEq]
    dsimp only at h
    omega

/-- Facts about every move a generator may emit. -/
theorem mem_occ_list {o : Option Piece} {c : Color} {m mv : Move}
    (h : m ∈ (match o with
              | none => [mv]
              | some target => if target.color ≠ c then [mv] else [])) :
    m = mv ∧ (∀ t, o = some t → t.color ≠ c) := by
  cases o with
  | none =>
    have h1 : m ∈ [mv] := h
    exact ⟨by simpa using h1, by intro t ht; cases ht⟩
  | some target =>
    have h1 : m ∈ (if target.color ≠ c then [mv] else []) := h
    by_cases hc : target.color ≠ c
    · rw [if_pos hc] at h1
      exact ⟨by simpa using h1, by intro t ht; cases ht; exact hc⟩
    · rw [if_neg hc] at h1
      exact absurd h1 (by simp)

theorem knight_moves_spec (g : Chess3D) (pos : Position) (piece : Piece) :
    ∀ m ∈ get_knight_moves g pos piece,
      m.from_pos = pos ∧ m.promotion = none ∧ is_valid_position m.to_pos = true ∧
        empty_or_enemy g piece.color m.to_pos := by
  intro m hm
  obtain ⟨o, -, hm⟩ := List.mem_flatMap.1 hm
  dsimp only at hm
  split at hm
  · next hvalid =>
    obtain ⟨rfl, he⟩ := mem_occ_list hm
    exact ⟨rfl, rfl, hvalid, he⟩
  · cases hm

theorem king_moves_spec (g : Chess3D) (pos : Position) (piece : Piece) :
    ∀ m ∈ get_king_moves g pos piece,
      m.from_pos = pos ∧ m.promotion = none ∧ is_valid_position m.to_pos = true ∧
        empty_or_enemy g piece.color m.to_pos := by
  intro m hm
  obtain ⟨o, -, hm⟩ := List.mem_flatMap.1 hm
  dsimp only at hm
  split at hm
  · next hvalid =>
    obtain ⟨rfl, he⟩ := mem_occ_list hm
    exact ⟨rfl, rfl, hvalid, he⟩
  · cases hm

theorem slide_from_spec (g : Chess3D) (pos : Position) (piece : Piece) (d : Int × Int) :
    ∀ fuel dist m, m ∈ slide_from g pos piece d dist fuel →
      m.from_pos = pos ∧ m.promotion = none ∧ is_valid_position m.to_pos = true ∧
        empty_or_enemy g piece.color m.to_pos := by
  intro fuel
  induction fuel with
  | zero => intro dist m hm; cases hm
  | succ fuel ih =>
    intro dist m hm
    rw [slide_from] at hm
    split at hm
    · next hvalid =>
      revert hm
      cases ho : g.get_piece ⟨pos.level, pos.rank + d.1 * (dist : Int),
          pos.file + d.2 * (dist : Int)⟩ with
      | none =>
        intro hm
        rcases List.mem_cons.1 hm with rfl | hm
        · exact ⟨rfl, rfl, hvalid, by intro t ht; rw [ho] at ht; cases ht⟩
        · exact ih (dist + 1) m hm
      | some target =>
        intro hm
        dsimp only at hm
        by_cases hc : target.color ≠ piece.color
        · rw [if_pos hc] at hm
          rcases List.mem_singleton.1 hm with rfl
          exact ⟨rfl, rfl, hvalid, by intro t ht; rw [ho] at ht; cases ht; exact hc⟩
        · rw [if_neg hc] at hm
          cases hm
    · cases hm

theorem sliding_moves_spec (g : Chess3D) (pos : Position) (piece : Piece)
    (directions : List (Int × Int)) :
    ∀ m ∈ get_sliding_moves g pos piece directions,
      m.from_pos = pos ∧ m.promotion = none ∧ is_valid_position m.to_pos = true ∧
        empty_or_enemy g piece.color m.to_pos := by
  intro m hm
  obtain ⟨d, -, hm⟩ := List.mem_flatMap.1 hm
  exact slide_from_spec g pos piece d 7 1 m hm

theorem pawn_moves_spec (g : Chess3D) (pos : Position) (piece : Piece) :
    ∀ m ∈ get_pawn_moves g pos piece,
      m.from_pos = pos ∧ is_valid_position m.to_pos = true ∧
        empty_or_enemy g piece.color m.to_pos ∧
        (m.to_pos.rank = pos.rank + (if piece.color = Color.white then (1 : Int) else -1) ∨
         (m.to_pos.rank = pos.rank + 2 * (if piece.color = Color.white then (1 : Int) else -1) ∧
          pos.rank = (if piece.color = Color.white then (1 : Int) else 6))) := by
  intro m hm
  simp only [get_pawn_moves] at hm
  set direction : Int := if piece.color = Color.white then (1 : Int) else -1 with hdir
  set start_rank : Int := if piece.color = Color.white then (1 : Int) else 6 with hsr
  rcases List.mem_append.1 hm with hm | hm
  rcases List.mem_append.1 hm with hm | hm
  · -- forward moves (single, promotions, double)
    by_cases h1 : (is_valid_position ⟨pos.level, pos.rank + direction, pos.file⟩ &&
        (g.get_piece ⟨pos.level, pos.rank + direction, pos.file⟩).isNone) = true
    · rw [if_pos h1] at hm
      rw [Bool.and_eq_true] at h1
      obtain ⟨hv, hn⟩ := h1
      rw [Option.isNone_iff_eq_none] at hn
      have heoe : empty_or_enemy g piece.color ⟨pos.level, pos.rank + direction, pos.file⟩ := by
        intro t ht; rw [hn] at ht; cases ht
      rcases List.mem_append.1 hm with hm | hm
      · by_cases h2 : (pos.rank + direction = 7 ∧ piece.color = Color.white) ∨
            (pos.rank + direction = 0 ∧ piece.color = Color.black)
        · rw [if_pos h2] at hm
          simp only [List.mem_cons, List.not_mem_nil, or_false] at hm
          rcases hm with rfl | rfl | rfl | rfl <;> exact ⟨rfl, hv, heoe, Or.inl rfl⟩
        · rw [if_neg h2] at hm
          rcases List.mem_singleton.1 hm with rfl
          exact ⟨rfl, hv, heoe, Or.inl rfl⟩
      · by_cases h3 : pos.rank = start_rank
        · rw [if_pos h3] at hm
          by_cases h4 : (is_valid_position ⟨pos.level, pos.rank + 2 * direction, pos.file⟩ &&
              (g.get_piece ⟨pos.level, pos.rank + 2 * direction, pos.file⟩).isNone) = true
          · rw [if_pos h4] at hm
            rw [Bool.and_eq_true] at h4
            obtain ⟨hv2, hn2⟩ := h4
            rw [Option.isNone_iff_eq_none] at hn2
            rcases List.mem_singleton.1 hm with rfl
            exact ⟨rfl, hv2, (by intro t ht; rw [hn2] at ht; cases ht), Or.inr ⟨rfl, h3⟩⟩
          · rw [if_neg h4] at hm
            cases hm
        · rw [if_neg h3] at hm
          cases hm
    · rw [if_neg h1] at hm
      cases hm
  · -- capture with file offset -1
    by_cases hv : is_valid_position ⟨pos.level, pos.rank + direction, pos.file + -1⟩ = true
    · rw [if_pos hv] at hm
      revert hm
      cases ho : g.get_piece ⟨pos.level, pos.rank + direction, pos.file + -1⟩ with
      | none => intro hm; cases hm
      | some target =>
        intro hm
        dsimp only at hm
        by_cases hc : target.color ≠ piece.color
        · rw [if_pos hc] at hm
          have heoe : empty_or_enemy g piece.color
              ⟨pos.level, pos.rank + direction, pos.file + -1⟩ := by
            intro t ht; rw [ho] at ht; cases ht; exact hc
          by_cases h2 : (pos.rank + direction = 7 ∧ piece.color = Color.white) ∨
              (pos.rank + direction = 0 ∧ piece.color = Color.black)
          · rw [if_pos h2] at hm
            simp only [List.mem_cons, List.not_mem_nil, or_false] at hm
            rcases hm with rfl | rfl | rfl | rfl <;> exact ⟨rfl, hv, heoe, Or.inl rfl⟩
          · rw [if_neg h2] at hm
            rcases List.mem_singleton.1 hm with rfl
            exact ⟨rfl, hv, heoe, Or.inl rfl⟩
        · rw [if_neg hc] at hm
          cases hm
    · rw [if_neg hv] at hm
      cases hm
  · -- capture with file offset 1
    by_cases hv : is_valid_position ⟨pos.level, pos.rank + direction, pos.file + 1⟩ = true
    · rw [if_pos hv] at hm
      revert hm
      cases ho : g.get_piece ⟨pos.level, pos.rank + direction, pos.file + 1⟩ with
      | none => intro hm; cases hm
      | some target =>
        intro hm
        dsimp only at hm
        by_cases hc : target.color ≠ piece.color
        · rw [if_pos hc] at hm
          have heoe : empty_or_enemy g piece.color
              ⟨pos.level, pos.rank + direction, pos.file + 1⟩ := by
            intro t ht; rw [ho] at ht; cases ht; exact hc
          by_cases h2 : (pos.rank + direction = 7 ∧ piece.color = Color.white) ∨
              (pos.rank + direction = 0 ∧ piece.color = Color.black)
          · rw [if_pos h2] at hm
            simp only [List.mem_cons, List.not_mem_nil, or_false] at hm
            rcases hm with rfl | rfl | rfl | rfl <;> exact ⟨rfl, hv, heoe, Or.inl rfl⟩
          · rw [if_neg h2] at hm
            rcases List.mem_singleton.1 hm with rfl
            exact ⟨rfl, hv, heoe, Or.inl rfl⟩
        · rw [if_neg hc] at hm
          cases hm
    · rw [if_neg hv] at hm
      cases hm

theorem threed_moves_spec (g : Chess3D) (pos : Position) (piece : Piece) :
    ∀ m ∈ get_3d_moves g pos piece,
      m.from_pos = pos ∧ m.promotion = none ∧
        (is_valid_position pos = true → is_valid_position m.to_pos = true) ∧
        empty_or_enemy g piece.color m.to_pos := by
  intro m hm
  simp only [get_3d_moves] at hm
  by_cases ht1 : piece.type = PieceType.knight
  · rw [if_pos ht1] at hm
    obtain ⟨lo, -, hm⟩ := List.mem_flatMap.1 hm
    obtain ⟨o, -, hm⟩ := List.mem_flatMap.1 hm
    split at hm
    · next hvalid =>
      obtain ⟨rfl, he⟩ := mem_occ_list hm
      exact ⟨rfl, rfl, fun _ => hvalid, he⟩
    · cases hm
  · rw [if_neg ht1] at hm
    by_cases ht2 : piece.type = PieceType.bishop ∨ piece.type = PieceType.queen
    · rw [if_pos ht2] at hm
      rcases List.mem_append.1 hm with hm | hm
      · by_cases hl : pos.level < 2
        · rw [if_pos hl] at hm
          obtain ⟨o, -, hm⟩ := List.mem_flatMap.1 hm
          split at hm
          · next hvalid =>
            obtain ⟨rfl, he⟩ := mem_occ_list hm
            exact ⟨rfl, rfl, fun _ => hvalid, he⟩
          · cases hm
        · rw [if_neg hl] at hm
          cases hm
      · by_cases hl : pos.level > 0
        · rw [if_pos hl] at hm
          obtain ⟨o, -, hm⟩ := List.mem_flatMap.1 hm
          split at hm
          · next hvalid =>
            obtain ⟨rfl, he⟩ := mem_occ_list hm
            exact ⟨rfl, rfl, fun _ => hvalid, he⟩
          · cases hm
        · rw [if_neg hl] at hm
          cases hm
    · rw [if_neg ht2] at hm
      by_cases ht3 : piece.type = PieceType.rook ∨ piece.type = PieceType.queen
      · rw [if_pos ht3] at hm
        rcases List.mem_append.1 hm with hm | hm
        · by_cases hl : pos.level < 2
          · rw [if_pos hl] at hm
            obtain ⟨rfl, he⟩ := mem_occ_list hm
            refine ⟨rfl, rfl, fun hpos => ?_, he⟩
            rw [valid_iff] at hpos
            rw [valid_iff]
            dsimp only
            omega
          · rw [if_neg hl] at hm
            cases hm
        · by_cases hl : pos.level > 0
          · rw [if_pos hl] at hm
            obtain ⟨rfl, he⟩ := mem_occ_list hm
            refine ⟨rfl, rfl, fun hpos => ?_, he⟩
            rw [valid_iff] at hpos
            rw [valid_iff]
            dsimp only
            omega
          · rw [if_neg hl] at hm
            cases hm
      · rw [if_neg ht3] at hm
        cases hm

theorem gvm_piece_exists (g : Chess3D) (pos : Position) (m : Move)
    (hm : m ∈ get_valid_moves g pos) : ∃ piece, g.get_piece pos = some piece := by
  cases h : g.get_piece pos with
  | none =>
    rw [get_valid_moves, h] at hm
    cases hm
  | some piece => exact ⟨piece, rfl⟩

theorem gvm_spec (g : Chess3D) (pos : Position) (piece : Piece)
    (hpiece : g.get_piece pos = some piece) :
    ∀ m ∈ get_valid_moves g pos,
      m.from_pos = pos ∧
        (is_valid_position pos = true → is_valid_position m.to_pos = true) ∧
        empty_or_enemy g piece.color m.to_pos ∧
        (m.promotion = none ∨ m.to_pos.rank ≠ pos.rank) := by
  intro m hm
  rw [get_valid_moves, hpiece] at hm
  have hm1 : m ∈ (match piece.type with
      | PieceType.pawn => get_pawn_moves g pos piece
      | PieceType.knight => get_knight_moves g pos piece
      | PieceType.bishop => get_bishop_moves g pos piece
      | PieceType.rook => get_rook_moves g pos piece
      | PieceType.queen => get_queen_moves g pos piece
      | PieceType.king => get_king_moves g pos piece) ++ get_3d_moves g pos piece := hm
  rcases List.mem_append.1 hm1 with hm2 | hm2
  · cases hpt : piece.type with
    | pawn =>
      rw [hpt] at hm2
      have hm3 : m ∈ get_pawn_moves g pos piece := hm2
      obtain ⟨h1, h2, h3, h4⟩ := pawn_moves_spec g pos piece m hm3
      refine ⟨h1, fun _ => h2, h3, Or.inr ?_⟩
      rcases h4 with h4 | ⟨h4, -⟩ <;> by_cases hc : piece.color = Color.white <;>
        simp only [hc, if_pos, if_neg, if_true, if_false] at h4 <;> omega
    | knight =>
      rw [hpt] at hm2
      have hm3 : m ∈ get_knight_moves g pos piece := hm2
      obtain ⟨h1, h2, h3, h4⟩ := knight_moves_spec g pos piece m hm3
      exact ⟨h1, fun _ => h3, h4, Or.inl h2⟩
    | bishop =>
      rw [hpt] at hm2
      have hm3 : m ∈ get_bishop_moves g pos piece := hm2
      obtain ⟨h1, h2, h3, h4⟩ := sliding_moves_spec g pos piece _ m hm3
      exact ⟨h1, fun _ => h3, h4, Or.inl h2⟩
    | rook =>
      rw [hpt] at hm2
      have hm3 : m ∈ get_rook_moves g pos piece := hm2
      obtain ⟨h1, h2, h3, h4⟩ := sliding_moves_spec g pos piece _ m hm3
      exact ⟨h1, fun _ => h3, h4, Or.inl h2⟩
    | queen =>
      rw [hpt] at hm2
      have hm3 : m ∈ get_queen_moves g pos piece := hm2
      obtain ⟨h1, h2, h3, h4⟩ := sliding_moves_spec g pos piece _ m hm3
      exact ⟨h1, fun _ => h3, h4, Or.inl h2⟩
    | king =>
      rw [hpt] at hm2
      have hm3 : m ∈ get_king_moves g pos piece := hm2
      obtain ⟨h1, h2, h3, h4⟩ := king_moves_spec g pos piece m hm3
      exact ⟨h1, fun _ => h3, h4, Or.inl h2⟩
  · obtain ⟨h1, h2, h3, h4⟩ := threed_moves_spec g pos piece m hm2
    exact ⟨h1, h3, h4, Or.inl h2⟩

/-- C10: for every board state and in-bounds position, every move returned by
`get_valid_moves` originates at that position, targets an in-bounds cell, and
its destination is empty or holds a piece of the opposite color — including
the rook vertical branch of `_get_3d_moves`, which reads the board without an
explicit `is_valid_position` check. -/
theorem get_valid_moves_safe (g : Chess3D) (pos : Position)
    (hpos : is_valid_position pos = true) :
    ∀ m ∈ get_valid_moves g pos,
      m.from_pos = pos ∧ is_valid_position m.to_pos = true ∧
        ∀ piece, g.get_piece pos = some piece → empty_or_enemy g piece.color m.to_pos := by
  intro m hm
  obtain ⟨piece, hpiece⟩ := gvm_piece_exists g pos m hm
  obtain ⟨h1, h2, h3, -⟩ := gvm_spec g pos piece hpiece m hm
  refine ⟨h1, h2 hpos, fun pc hpc => ?_⟩
  rw [hpiece] at hpc
  cases hpc
  exact h3

/-- C10 witness: the initial knight move b1-c3 (level A) instantiates the
safety theorem. -/
theorem get_valid_moves_safe_witness :
    is_valid_position ⟨0, 0, 1⟩ = true ∧
      Move.mk ⟨0, 0, 1⟩ ⟨0, 2, 2⟩ none ∈ get_valid_moves initial_game ⟨0, 0, 1⟩ ∧
      ((Move.mk ⟨0, 0, 1⟩ ⟨0, 2, 2⟩ none).from_pos = ⟨0, 0, 1⟩ ∧
        is_valid_position (Move.mk ⟨0, 0, 1⟩ ⟨0, 2, 2⟩ none).to_pos = true ∧
        ∀ piece, initial_game.get_piece ⟨0, 0, 1⟩ = some piece →
          empty_or_enemy initial_game piece.color (Move.mk ⟨0, 0, 1⟩ ⟨0, 2, 2⟩ none).to_pos) :=
  ⟨by decide, by decide,
    get_valid_moves_safe initial_game ⟨0, 0, 1⟩ (by decide) _ (by decide)⟩

theorem make_move_success (g : Chess3D) (m : Move) (piece : Piece)
    (hpiece : g.get_piece m.from_pos = some piece)
    (hcolor : piece.color = g.current_player)
    (hmem : m ∈ get_valid_moves g m.from_pos) :
    make_move g m = (true,
      { board :=
          match m.promotion with
          | some promo =>
            if piece.type = PieceType.pawn ∧
               ((piece.color = Color.white ∧ m.to_pos.rank = 7) ∨
                (piece.color = Color.black ∧ m.to_pos.rank = 0)) then
              set_piece (set_piece (set_piece g.board m.to_pos (some piece)) m.from_pos none)
                m.to_pos (some ⟨promo, piece.color⟩)
            else set_piece (set_piece g.board m.to_pos (some piece)) m.from_pos none
          | none => set_piece (set_piece g.board m.to_pos (some piece)) m.from_pos none,
        current_player :=
          if g.current_player = Color.white then Color.black else Color.white,
        move_history := (m, g.get_piece m.to_pos) :: g.move_history }) := by
  rw [make_move, hpiece]
  dsimp only
  rw [if_neg (not_not_intro hcolor), if_neg (not_not_intro hmem)]

theorem make_move_fail_no_piece (g : Chess3D) (m : Move)
    (h : g.get_piece m.from_pos = none) : make_move g m = (false, g) := by
  rw [make_move, h]

theorem make_move_fail_color (g : Chess3D) (m : Move) (piece : Piece)
    (hpiece : g.get_piece m.from_pos = some piece)
    (h : piece.color ≠ g.current_player) : make_move g m = (false, g) := by
  rw [make_move, hpiece]
  dsimp only
  rw [if_pos h]

theorem make_move_fail_not_mem (g : Chess3D) (m : Move)
    (h : m ∉ get_valid_moves g m.from_pos) : make_move g m = (false, g) := by
  cases hp : g.get_piece m.from_pos with
  | none => rw [make_move, hp]
  | some piece =>
    rw [make_move, hp]
    dsimp only
    by_cases hc : piece.color ≠ g.current_player
    · rw [if_pos hc]
    · rw [if_neg hc, if_pos h]

theorem undo_move_fail (g : Chess3D) (h : g.move_history = []) :
    undo_move g = (false, g) := by
  rw [undo_move, h]

theorem chess3d_ext (g1 g2 : Chess3D) (h1 : g1.board = g2.board)
    (h2 : g1.current_player = g2.current_player)
    (h3 : g1.move_history = g2.move_history) : g1 = g2 := by
  cases g1; cases g2
  cases h1; cases h2; cases h3
  rfl

theorem flip_flip (c : Color) :
    (if (if c = Color.white then Color.black else Color.white) = Color.white then Color.black
     else Color.white) = c := by
  cases c <;> rfl

/-- Board restored exactly by undo after a successful non-promoting move. -/
theorem undo_board_exact (g : Chess3D) (m : Move) (piece : Piece)
    (hpiece : g.get_piece m.from_pos = some piece) :
    (fun b => set_piece (set_piece b m.from_pos (b m.to_pos)) m.to_pos (g.get_piece m.to_pos))
        (set_piece (set_piece g.board m.to_pos (some piece)) m.from_pos none) =
      g.board := by
  funext p
  simp only [set_piece, Chess3D.get_piece] at *
  split_ifs with h1 h2 h3 h4 <;> simp_all

theorem undo_board_promo (g : Chess3D) (m : Move) (piece : Piece) (promo : PieceType)
    (hne : m.from_pos ≠ m.to_pos) :
    (fun b => set_piece (set_piece b m.from_pos (b m.to_pos)) m.to_pos (g.get_piece m.to_pos))
        (set_piece (set_piece (set_piece g.board m.to_pos (some piece)) m.from_pos none)
          m.to_pos (some ⟨promo, piece.color⟩)) =
      set_piece g.board m.from_pos (some ⟨promo, piece.color⟩) := by
  funext p
  simp only [set_piece, Chess3D.get_piece]
  split_ifs <;> simp_all

theorem make_move_true_elim (g : Chess3D) (m : Move) (h : (make_move g m).1 = true) :
    ∃ piece, g.get_piece m.from_pos = some piece ∧ piece.color = g.current_player ∧
      m ∈ get_valid_moves g m.from_pos := by
  cases hp : g.get_piece m.from_pos with
  | none => rw [make_move_fail_no_piece g m hp] at h; cases h
  | some piece =>
    by_cases hc : piece.color = g.current_player
    · by_cases hm : m ∈ get_valid_moves g m.from_pos
      · exact ⟨piece, rfl, hc, hm⟩
      · rw [make_move_fail_not_mem g m hm] at h; cases h
    · rw [make_move_fail_color g m piece hp hc] at h; cases h

/-- Undo after a successful move with no applied promotion restores the state
exactly. -/
theorem make_undo_exact (g : Chess3D) (m : Move) (piece : Piece)
    (hpiece : g.get_piece m.from_pos = some piece)
    (hcolor : piece.color = g.current_player)
    (hmem : m ∈ get_valid_moves g m.from_pos)
    (hnp : promo_applied g m = none) :
    undo_move (make_move g m).2 = (true, g) := by
  rw [make_move_success g m piece hpiece hcolor hmem]
  cases hpr : m.promotion with
  | none =>
    rw [undo_move]
    dsimp only
    exact congrArg (Prod.mk true)
      (chess3d_ext _ _ (undo_board_exact g m piece hpiece) (flip_flip _) rfl)
  | some promo =>
    have hcond : ¬(piece.type = PieceType.pawn ∧
        ((piece.color = Color.white ∧ m.to_pos.rank = 7) ∨
         (piece.color = Color.black ∧ m.to_pos.rank = 0))) := by
      intro hc
      unfold promo_applied at hnp
      rw [hpiece, hpr] at hnp
      dsimp only at hnp
      rw [if_pos hc] at hnp
      cases hnp
    dsimp only
    rw [if_neg hcond]
    rw [undo_move]
    dsimp only
    exact congrArg (Prod.mk true)
      (chess3d_ext _ _ (undo_board_exact g m piece hpiece) (flip_flip _) rfl)

/-- Undo after a successful promoting move restores everything except the
mover cell, which keeps the promoted piece. -/
theorem make_undo_promo (g : Chess3D) (m : Move) (piece : Piece) (promo : PieceType)
    (hpiece : g.get_piece m.from_pos = some piece)
    (hcolor : piece.color = g.current_player)
    (hmem : m ∈ get_valid_moves g m.from_pos)
    (hpr : m.promotion = some promo)
    (hcond : piece.type = PieceType.pawn ∧
      ((piece.color = Color.white ∧ m.to_pos.rank = 7) ∨
       (piece.color = Color.black ∧ m.to_pos.rank = 0)))
    (hne : m.from_pos ≠ m.to_pos) :
    undo_move (make_move g m).2 =
      (true, { board := set_piece g.board m.from_pos (some ⟨promo, piece.color⟩),
               current_player := g.current_player,
               move_history := g.move_history }) := by
  rw [make_move_success g m piece hpiece hcolor hmem]
  rw [hpr]
  dsimp only
  rw [if_pos hcond]
  rw [undo_move]
  dsimp only
  refine congrArg (Prod.mk true) (chess3d_ext _ _ ?_ (flip_flip _) rfl)
  exact undo_board_promo g m piece promo hne

/-- C1: for every state and every move accepted by `make_move`, `undo_move`
immediately afterwards returns true and restores the prior side to move, move
history, and every board cell, except that the origin cell of a promoting
move keeps the promoted piece instead of the pawn. -/
theorem make_undo_roundtrip (g : Chess3D) (m : Move) (h : (make_move g m).1 = true) :
    (undo_move (make_move g m).2).1 = true ∧
    ((undo_move (make_move g m).2).2).current_player = g.current_player ∧
    ((undo_move (make_move g m).2).2).move_history = g.move_history ∧
    (∀ p, p ≠ m.from_pos → ((undo_move (make_move g m).2).2).board p = g.board p) ∧
    ((undo_move (make_move g m).2).2).board m.from_pos =
      (match promo_applied g m with
       | some pc => some pc
       | none => g.board m.from_pos) := by
  obtain ⟨piece, hpiece, hcolor, hmem⟩ := make_move_true_elim g m h
  cases hpa : promo_applied g m with
  | none =>
    rw [make_undo_exact g m piece hpiece hcolor hmem hpa]
    exact ⟨rfl, rfl, rfl, fun p _ => rfl, rfl⟩
  | some pc =>
    have hx := hpa
    unfold promo_applied at hx
    rw [hpiece] at hx
    cases hpr : m.promotion with
    | none =>
      rw [hpr] at hx
      cases hx
    | some promo =>
      rw [hpr] at hx
      dsimp only at hx
      by_cases hcond : piece.type = PieceType.pawn ∧
          ((piece.color = Color.white ∧ m.to_pos.rank = 7) ∨
           (piece.color = Color.black ∧ m.to_pos.rank = 0))
      · rw [if_pos hcond] at hx
        injection hx with hx
        obtain ⟨-, -, -, h4⟩ := gvm_spec g m.from_pos piece hpiece m hmem
        rcases h4 with h4 | h4
        · rw [hpr] at h4
          cases h4
        · have hne : m.from_pos ≠ m.to_pos := by
            intro he
            exact h4 (congrArg Position.rank he.symm)
          rw [make_undo_promo g m piece promo hpiece hcolor hmem hpr hcond hne]
          refine ⟨rfl, rfl, rfl, fun p hp => set_piece_other _ _ _ _ hp, ?_⟩
          dsimp only
          rw [set_piece_same, hx]
      · rw [if_neg hcond] at hx
        cases hx

/-- C1 witness: instantiated by the initial knight move b1-c3 on level A. -/
theorem make_undo_roundtrip_witness :
    (make_move initial_game (Move.mk ⟨0, 0, 1⟩ ⟨0, 2, 2⟩ none)).1 = true ∧
    (undo_move (make_move initial_game (Move.mk ⟨0, 0, 1⟩ ⟨0, 2, 2⟩ none)).2).1 = true :=
  ⟨by decide,
   (make_undo_roundtrip initial_game (Move.mk ⟨0, 0, 1⟩ ⟨0, 2, 2⟩ none) (by decide)).1⟩

/-- C5: `make_move` returns false and leaves the state untouched when there
is no piece at the origin, the piece is not the side to move, or the move is
not in the generator's legal set; `undo_move` returns false and changes
nothing on an empty history. -/
theorem make_move_failure_no_mutation (g : Chess3D) (m : Move) :
    (g.get_piece m.from_pos = none → make_move g m = (false, g)) ∧
    (∀ piece, g.get_piece m.from_pos = some piece → piece.color ≠ g.current_player →
      make_move g m = (false, g)) ∧
    (m ∉ get_valid_moves g m.from_pos → make_move g m = (false, g)) ∧
    (g.move_history = [] → undo_move g = (false, g)) :=
  ⟨make_move_fail_no_piece g m,
   fun piece hp hc => make_move_fail_color g m piece hp hc,
   make_move_fail_not_mem g m,
   undo_move_fail g⟩

/-- C5 witness: a move from the empty cell Ba1, a black pawn moved on White's
turn, and an undo with empty history, all on the initial position. -/
theorem make_move_failure_no_mutation_witness :
    make_move initial_game (Move.mk ⟨1, 0, 0⟩ ⟨1, 1, 0⟩ none) = (false, initial_game) ∧
    make_move initial_game (Move.mk ⟨2, 6, 0⟩ ⟨2, 5, 0⟩ none) = (false, initial_game) ∧
    undo_move initial_game = (false, initial_game) :=
  ⟨(make_move_failure_no_mutation initial_game (Move.mk ⟨1, 0, 0⟩ ⟨1, 1, 0⟩ none)).1 (by decide),
   (make_move_failure_no_mutation initial_game (Move.mk ⟨2, 6, 0⟩ ⟨2, 5, 0⟩ none)).2.1
     ⟨PieceType.pawn, Color.black⟩ (by decide) (by decide),
   (make_move_failure_no_mutation initial_game (Move.mk ⟨1, 0, 0⟩ ⟨1, 1, 0⟩ none)).2.2.2 rfl⟩

theorem cm_trial_restore (g : Chess3D) (pos : Position) (piece : Piece)
    (hpiece : g.get_piece pos = some piece) (move : Move) :
    set_piece (set_piece (set_piece (set_piece g.board move.to_pos (some piece)) pos none)
        pos (some piece)) move.to_pos (g.get_piece move.to_pos) = g.board := by
  funext p
  simp only [set_piece, Chess3D.get_piece] at *
  split_ifs <;> simp_all

theorem cm_moves_restore (color : Color) (pos : Position) (piece : Piece) :
    ∀ ms (g : Chess3D), g.get_piece pos = some piece →
      (cm_moves color pos piece ms g).2 = g := by
  intro ms
  induction ms with
  | nil => intro g _; rfl
  | cons move rest ih =>
    intro g hpiece
    simp only [cm_moves]
    rw [cm_trial_restore g pos piece hpiece move]
    have he : ({ g with board := g.board } : Chess3D) = g := rfl
    rw [he]
    split
    · exact ih g hpiece
    · rfl

theorem cm_pos_restore (color : Color) :
    ∀ ps (g : Chess3D), (cm_pos color ps g).2 = g := by
  intro ps
  induction ps with
  | nil => intro g; rfl
  | cons pos rest ih =>
    intro g
    rw [cm_pos]
    cases hp : g.get_piece pos with
    | none => exact ih g
    | some piece =>
      dsimp only
      by_cases hc : piece.color = color
      · rw [if_pos hc]
        have hres := cm_moves_restore color pos piece (get_valid_moves g pos) g hp
        rcases hcm : cm_moves color pos piece (get_valid_moves g pos) g with ⟨r, g1⟩
        rw [hcm] at hres
        cases r with
        | some rr => exact hres
        | none =>
          have hg1 : g1 = g := hres
          dsimp only
          rw [hg1]
          exact ih g
      · rw [if_neg hc]
        exact ih g

/-- C6: `is_checkmate` returns with board, side to move and history exactly
as at entry: every hypothetical two-cell relocation is restored before the
next trial and before returning, and the move history is never touched. -/
theorem is_checkmate_frame (g : Chess3D) (color : Color) :
    (is_checkmate_impl g color).2 = g := by
  rw [is_checkmate_impl]
  split
  · have hres := cm_pos_restore color allPositions g
    rcases hcm : cm_pos color allPositions g with ⟨r, g1⟩
    rw [hcm] at hres
    cases r with
    | some rr => exact hres
    | none => exact hres
  · rfl

/-- C7: `evaluate_position` returns -10000 when White is checkmated and
+10000 when White is not checkmated but Black is; the White test runs first
and both run before any other evaluation term. -/
theorem evaluate_checkmate_first (g : Chess3D) :
    (is_checkmate g Color.white = true → evaluate_position g = -10000) ∧
    (is_checkmate g Color.white = false → is_checkmate g Color.black = true →
      evaluate_position g = 10000) := by
  constructor
  · intro h
    rw [evaluate_position, if_pos h]
  · intro h1 h2
    rw [evaluate_position, if_neg (by simp [h1]), if_pos h2]

/-- C7 witness: the two-rook corner mates instantiate both directions. -/
theorem evaluate_checkmate_first_witness :
    evaluate_position mate_game = -10000 ∧ evaluate_position mate_game_black = 10000 :=
  ⟨(evaluate_checkmate_first mate_game).1 (by decide),
   (evaluate_checkmate_first mate_game_black).2 (by decide) (by decide)⟩

/-- C8: with no king of the requested color anywhere on the board,
`is_check` reports false rather than failing. -/
theorem is_check_no_king (g : Chess3D) (color : Color)
    (h : ∀ p ∈ allPositions, g.board p ≠ some ⟨PieceType.king, color⟩) :
    is_check g color = false := by
  rw [is_check]
  have hfind : allPositions.find? (fun p =>
      match g.board p with
      | some piece => decide (piece.type = PieceType.king ∧ piece.color = color)
      | none => false) = none := by
    rw [List.find?_eq_none]
    intro p hp
    cases hb : g.board p with
    | none => simp
    | some pc =>
      simp only [decide_eq_true_eq]
      rintro ⟨ht, hc⟩
      apply h p hp
      rw [hb]
      obtain ⟨pt, pcol⟩ := pc
      dsimp only at ht hc
      rw [ht, hc]
  rw [hfind]

set_option maxRecDepth 4000 in
/-- C8 witness: the empty board has no white king. -/
theorem is_check_no_king_witness : is_check empty_game Color.white = false :=
  is_check_no_king empty_game Color.white (by decide)

/-- C2: the spec (and the source comment over the rook-or-queen branch of
`_get_3d_moves`) promise a pure vertical level step for rooks and queens, but
the `elif` chain hands queens to the bishop-or-queen diagonal branch first,
so a queen never receives the vertical move, which a rook in the same cell
does receive. -/
theorem queen_vertical_move_missing :
    queen_game.get_piece ⟨1, 3, 3⟩ = some ⟨PieceType.queen, Color.white⟩ ∧
    queen_game.get_piece ⟨2, 3, 3⟩ = none ∧
    queen_game.get_piece ⟨0, 3, 3⟩ = none ∧
    Move.mk ⟨1, 3, 3⟩ ⟨2, 3, 3⟩ none ∉ get_valid_moves queen_game ⟨1, 3, 3⟩ ∧
    Move.mk ⟨1, 3, 3⟩ ⟨0, 3, 3⟩ none ∉ get_valid_moves queen_game ⟨1, 3, 3⟩ ∧
    rook_game.get_piece ⟨1, 3, 3⟩ = some ⟨PieceType.rook, Color.white⟩ ∧
    Move.mk ⟨1, 3, 3⟩ ⟨2, 3, 3⟩ none ∈ get_valid_moves rook_game ⟨1, 3, 3⟩ ∧
    Move.mk ⟨1, 3, 3⟩ ⟨0, 3, 3⟩ none ∈ get_valid_moves rook_game ⟨1, 3, 3⟩ := by
  decide

theorem pawn_ok_mono (g : Chess3D) (a a' b b' : Int) (p : Position)
    (h : pawn_ok g a b p = true) (haa : a ≤ a') (hbb : b' ≤ b) :
    pawn_ok g a' b' p = true := by
  unfold pawn_ok at *
  cases hb : g.board p with
  | none => rfl
  | some pc =>
    rw [hb] at h
    dsimp only at h ⊢
    by_cases ht : pc.type = PieceType.pawn
    · rw [if_pos ht] at h ⊢
      by_cases hc : pc.color = Color.white
      · rw [if_pos hc] at h ⊢
        simp only [decide_eq_true_eq] at h ⊢
        omega
      · rw [if_neg hc] at h ⊢
        simp only [decide_eq_true_eq] at h ⊢
        omega
    · rw [if_neg ht]

theorem threed_moves_pawn (g : Chess3D) (pos : Position) (piece : Piece)
    (hpt : piece.type = PieceType.pawn) : get_3d_moves g pos piece = [] := by
  rw [get_3d_moves, if_neg (by rw [hpt]; intro h; cases h),
    if_neg (by rw [hpt]; rintro (h | h) <;> cases h),
    if_neg (by rw [hpt]; rintro (h | h) <;> cases h)]

theorem pawn_dest_white (g : Chess3D) (pos : Position) (piece : Piece) (m : Move)
    (hpt : piece.type = PieceType.pawn) (hpc : piece.color = Color.white)
    (hpiece : g.get_piece pos = some piece) (hm : m ∈ get_valid_moves g pos) :
    m.to_pos.rank ≤ max 3 (pos.rank + 1) := by
  rw [get_valid_moves, hpiece] at hm
  have hm1 : m ∈ (match piece.type with
      | PieceType.pawn => get_pawn_moves g pos piece
      | PieceType.knight => get_knight_moves g pos piece
      | PieceType.bishop => get_bishop_moves g pos piece
      | PieceType.rook => get_rook_moves g pos piece
      | PieceType.queen => get_queen_moves g pos piece
      | PieceType.king => get_king_moves g pos piece) ++ get_3d_moves g pos piece := hm
  rw [hpt, threed_moves_pawn g pos piece hpt, List.append_nil] at hm1
  obtain ⟨-, -, -, h4⟩ := pawn_moves_spec g pos piece m hm1
  simp only [hpc, if_true, eq_self_iff_true] at h4
  rcases h4 with h4 | ⟨h4, h5⟩ <;> omega

theorem pawn_dest_black (g : Chess3D) (pos : Position) (piece : Piece) (m : Move)
    (hpt : piece.type = PieceType.pawn) (hpc : piece.color = Color.black)
    (hpiece : g.get_piece pos = some piece) (hm : m ∈ get_valid_moves g pos) :
    min 4 (pos.rank - 1) ≤ m.to_pos.rank := by
  rw [get_valid_moves, hpiece] at hm
  have hm1 : m ∈ (match piece.type with
      | PieceType.pawn => get_pawn_moves g pos piece
      | PieceType.knight => get_knight_moves g pos piece
      | PieceType.bishop => get_bishop_moves g pos piece
      | PieceType.rook => get_rook_moves g pos piece
      | PieceType.queen => get_queen_moves g pos piece
      | PieceType.king => get_king_moves g pos piece) ++ get_3d_moves g pos piece := hm
  rw [hpt, threed_moves_pawn g pos piece hpt, List.append_nil] at hm1
  obtain ⟨-, -, -, h4⟩ := pawn_moves_spec g pos piece m hm1
  have hcw : ¬piece.color = Color.white := by rw [hpc]; intro h; cases h
  simp only [if_neg hcw] at h4
  rcases h4 with h4 | ⟨h4, h5⟩ <;> omega

/-- A white move under the pawn bounds applies no promotion. -/
theorem white_move_no_promo (g : Chess3D) (m : Move) (piece : Piece) (pa pb : Int)
    (hpiece : g.get_piece m.from_pos = some piece)
    (hcolor : piece.color = g.current_player)
    (hcp : g.current_player = Color.white)
    (hmem : m ∈ get_valid_moves g m.from_pos)
    (hfrom : m.from_pos ∈ allPositions)
    (hpb : pawns_bounded g pa pb) (hpa5 : pa ≤ 5) :
    promo_applied g m = none := by
  unfold promo_applied
  rw [hpiece]
  cases hpr : m.promotion with
  | none => rfl
  | some promo =>
    dsimp only
    rw [if_neg]
    rintro ⟨hpt, hc⟩
    rcases hc with ⟨-, h7⟩ | ⟨hb, -⟩
    · have hok := hpb m.from_pos hfrom
      unfold pawn_ok at hok
      rw [show g.board m.from_pos = some piece from hpiece] at hok
      dsimp only at hok
      rw [if_pos hpt, if_pos (hcolor.trans hcp)] at hok
      simp only [decide_eq_true_eq] at hok
      have := pawn_dest_white g m.from_pos piece m hpt (hcolor.trans hcp) hpiece hmem
      omega
    · rw [hcolor, hcp] at hb
      cases hb

/-- A black move under the pawn bounds applies no promotion. -/
theorem black_move_no_promo (g : Chess3D) (m : Move) (piece : Piece) (pa pb : Int)
    (hpiece : g.get_piece m.from_pos = some piece)
    (hcolor : piece.color = g.current_player)
    (hcp : g.current_player = Color.black)
    (hmem : m ∈ get_valid_moves g m.from_pos)
    (hfrom : m.from_pos ∈ allPositions)
    (hpb : pawns_bounded g pa pb) (hpb2 : 2 ≤ pb) :
    promo_applied g m = none := by
  unfold promo_applied
  rw [hpiece]
  cases hpr : m.promotion with
  | none => rfl
  | some promo =>
    dsimp only
    rw [if_neg]
    rintro ⟨hpt, hc⟩
    rcases hc with ⟨hw, -⟩ | ⟨-, h0⟩
    · rw [hcolor, hcp] at hw
      cases hw
    · have hok := hpb m.from_pos hfrom
      unfold pawn_ok at hok
      rw [show g.board m.from_pos = some piece from hpiece] at hok
      dsimp only at hok
      have hcw : ¬piece.color = Color.white := by
        rw [hcolor, hcp]; intro h; cases h
      rw [if_pos hpt, if_neg hcw] at hok
      simp only [decide_eq_true_eq] at hok
      have := pawn_dest_black g m.from_pos piece m hpt (hcolor.trans hcp) hpiece hmem
      omega

/-- The board after a successful non-promoting move. -/
theorem make_move_board_no_promo (g : Chess3D) (m : Move) (piece : Piece)
    (hpiece : g.get_piece m.from_pos = some piece)
    (hcolor : piece.color = g.current_player)
    (hmem : m ∈ get_valid_moves g m.from_pos)
    (hnp : promo_applied g m = none) :
    ((make_move g m).2).board =
      set_piece (set_piece g.board m.to_pos (some piece)) m.from_pos none := by
  rw [make_move_success g m piece hpiece hcolor hmem]
  cases hpr : m.promotion with
  | none => rfl
  | some promo =>
    have hcond : ¬(piece.type = PieceType.pawn ∧
        ((piece.color = Color.white ∧ m.to_pos.rank = 7) ∨
         (piece.color = Color.black ∧ m.to_pos.rank = 0))) := by
      intro hc
      unfold promo_applied at hnp
      rw [hpiece, hpr] at hnp
      dsimp only at hnp
      rw [if_pos hc] at hnp
      cases hnp
    dsimp only
    rw [if_neg hcond]

/-- Pawn bounds after a successful white move, widened to `max 3 (pa + 1)`. -/
theorem pawns_bounded_after_white (g : Chess3D) (m : Move) (piece : Piece) (pa pb : Int)
    (hpiece : g.get_piece m.from_pos = some piece)
    (hcolor : piece.color = g.current_player)
    (hcp : g.current_player = Color.white)
    (hmem : m ∈ get_valid_moves g m.from_pos)
    (hfrom : m.from_pos ∈ allPositions)
    (hpb : pawns_bounded g pa pb) (hpa5 : pa ≤ 5) :
    pawns_bounded ((make_move g m).2) (max 3 (pa + 1)) pb := by
  intro p hp
  rw [pawn_ok, make_move_board_no_promo g m piece hpiece hcolor hmem
    (white_move_no_promo g m piece pa pb hpiece hcolor hcp hmem hfrom hpb hpa5)]
  by_cases hpf : p = m.from_pos
  · rw [hpf, set_piece_same]
  · rw [set_piece_other _ _ _ _ hpf]
    by_cases hpt : p = m.to_pos
    · rw [hpt, set_piece_same]
      dsimp only
      by_cases ht : piece.type = PieceType.pawn
      · rw [if_pos ht, if_pos (hcolor.trans hcp)]
        simp only [decide_eq_true_eq]
        have hok := hpb m.from_pos hfrom
        unfold pawn_ok at hok
        rw [show g.board m.from_pos = some piece from hpiece] at hok
        dsimp only at hok
        rw [if_pos ht, if_pos (hcolor.trans hcp)] at hok
        simp only [decide_eq_true_eq] at hok
        have := pawn_dest_white g m.from_pos piece m ht (hcolor.trans hcp) hpiece hmem
        omega
      · rw [if_neg ht]
    · rw [set_piece_other _ _ _ _ hpt]
      exact pawn_ok_mono g pa (max 3 (pa + 1)) pb pb p (hpb p hp) (by omega) le_rfl

/-- Pawn bounds after a successful black move, widened to `min 4 (pb - 1)`. -/
theorem pawns_bounded_after_black (g : Chess3D) (m : Move) (piece : Piece) (pa pb : Int)
    (hpiece : g.get_piece m.from_pos = some piece)
    (hcolor : piece.color = g.current_player)
    (hcp : g.current_player = Color.black)
    (hmem : m ∈ get_valid_moves g m.from_pos)
    (hfrom : m.from_pos ∈ allPositions)
    (hpb : pawns_bounded g pa pb) (hpb2 : 2 ≤ pb) :
    pawns_bounded ((make_move g m).2) pa (min 4 (pb - 1)) := by
  intro p hp
  rw [pawn_ok, make_move_board_no_promo g m piece hpiece hcolor hmem
    (black_move_no_promo g m piece pa pb hpiece hcolor hcp hmem hfrom hpb hpb2)]
  by_cases hpf : p = m.from_pos
  · rw [hpf, set_piece_same]
  · rw [set_piece_other _ _ _ _ hpf]
    by_cases hpt : p = m.to_pos
    · rw [hpt, set_piece_same]
      dsimp only
      by_cases ht : piece.type = PieceType.pawn
      · have hcw : ¬piece.color = Color.white := by
          rw [hcolor, hcp]; intro h; cases h
        rw [if_pos ht, if_neg hcw]
        simp only [decide_eq_true_eq]
        have hok := hpb m.from_pos hfrom
        unfold pawn_ok at hok
        rw [show g.board m.from_pos = some piece from hpiece] at hok
        dsimp only at hok
        rw [if_pos ht, if_neg hcw] at hok
        simp only [decide_eq_true_eq] at hok
        have := pawn_dest_black g m.from_pos piece m ht (hcolor.trans hcp) hpiece hmem
        omega
      · rw [if_neg ht]
    · rw [set_piece_other _ _ _ _ hpt]
      exact pawn_ok_mono g pa pa pb (min 4 (pb - 1)) p (hpb p hp) le_rfl (by omega)

/-- The player after a successful move is the other color. -/
theorem make_move_player (g : Chess3D) (m : Move) (piece : Piece)
    (hpiece : g.get_piece m.from_pos = some piece)
    (hcolor : piece.color = g.current_player)
    (hmem : m ∈ get_valid_moves g m.from_pos) :
    ((make_move g m).2).current_player =
      (if g.current_player = Color.white then Color.black else Color.white) := by
  rw [make_move_success g m piece hpiece hcolor hmem]

theorem mm_max_moves_restores
    (child : Chess3D → Val → Val → Val × Chess3D) (beta : Val) (pa pb : Int)
    (g : Chess3D)
    (hcp : g.current_player = Color.white)
    (hpb : pawns_bounded g pa pb) (hpa5 : pa ≤ 5)
    (hchild : ∀ m, legal_move_of g Color.white m → ∀ a b,
      (child ((make_move g m).2) a b).2 = (make_move g m).2) :
    ∀ ms value alpha, (∀ m ∈ ms, legal_move_of g Color.white m) →
      (mm_max_moves child beta ms value alpha g).2.2.1 = g := by
  intro ms
  induction ms with
  | nil => intro value alpha _; rfl
  | cons m rest ih =>
    intro value alpha hms
    simp only [mm_max_moves]
    obtain ⟨piece, hpiece, hcolor', hmem, hfrom⟩ := hms m (List.mem_cons_self m rest)
    have hcolor : piece.color = g.current_player := by rw [hcolor', hcp]
    have hnp := white_move_no_promo g m piece pa pb hpiece hcolor hcp hmem hfrom hpb hpa5
    rw [hchild m ⟨piece, hpiece, hcolor', hmem, hfrom⟩ alpha beta]
    rw [make_undo_exact g m piece hpiece hcolor hmem hnp]
    split
    · rfl
    · exact ih _ _ (fun m' hm' => hms m' (List.mem_cons_of_mem m hm'))

theorem mm_min_moves_restores
    (child : Chess3D → Val → Val → Val × Chess3D) (alpha : Val) (pa pb : Int)
    (g : Chess3D)
    (hcp : g.current_player = Color.black)
    (hpb : pawns_bounded g pa pb) (hpb2 : 2 ≤ pb)
    (hchild : ∀ m, legal_move_of g Color.black m → ∀ a b,
      (child ((make_move g m).2) a b).2 = (make_move g m).2) :
    ∀ ms value beta, (∀ m ∈ ms, legal_move_of g Color.black m) →
      (mm_min_moves child alpha ms value beta g).2.2.1 = g := by
  intro ms
  induction ms with
  | nil => intro value beta _; rfl
  | cons m rest ih =>
    intro value beta hms
    simp only [mm_min_moves]
    obtain ⟨piece, hpiece, hcolor', hmem, hfrom⟩ := hms m (List.mem_cons_self m rest)
    have hcolor : piece.color = g.current_player := by rw [hcolor', hcp]
    have hnp := black_move_no_promo g m piece pa pb hpiece hcolor hcp hmem hfrom hpb hpb2
    rw [hchild m ⟨piece, hpiece, hcolor', hmem, hfrom⟩ alpha beta]
    rw [make_undo_exact g m piece hpiece hcolor hmem hnp]
    split
    · rfl
    · exact ih _ _ (fun m' hm' => hms m' (List.mem_cons_of_mem m hm'))

theorem mm_max_pos_restores
    (child : Chess3D → Val → Val → Val × Chess3D) (beta : Val) (pa pb : Int)
    (g : Chess3D)
    (hcp : g.current_player = Color.white)
    (hpb : pawns_bounded g pa pb) (hpa5 : pa ≤ 5)
    (hchild : ∀ m, legal_move_of g Color.white m → ∀ a b,
      (child ((make_move g m).2) a b).2 = (make_move g m).2) :
    ∀ ps value alpha, (∀ p ∈ ps, p ∈ allPositions) →
      (mm_max_pos child beta ps value alpha g).2 = g := by
  intro ps
  induction ps with
  | nil => intro value alpha _; rfl
  | cons pos rest ih =>
    intro value alpha hps
    simp only [mm_max_pos]
    cases hp : g.get_piece pos with
    | none => exact ih _ _ (fun p hp' => hps p (List.mem_cons_of_mem pos hp'))
    | some piece =>
      dsimp only
      by_cases hc : piece.color = Color.white
      · rw [if_pos hc]
        have hmsleg : ∀ m ∈ get_valid_moves g pos, legal_move_of g Color.white m := by
          intro m hm
          obtain ⟨h1, -, -, -⟩ := gvm_spec g pos piece hp m hm
          exact ⟨piece, h1 ▸ hp, hc, h1 ▸ hm, h1 ▸ hps pos (List.mem_cons_self pos rest)⟩
        have hres := mm_max_moves_restores child beta pa pb g hcp hpb hpa5 hchild
          (get_valid_moves g pos) value alpha hmsleg
        rcases hmm : mm_max_moves child beta (get_valid_moves g pos) value alpha g
          with ⟨v1, a1, g1, cut⟩
        rw [hmm] at hres
        cases cut with
        | true => exact hres
        | false =>
          dsimp only
          rw [show g1 = g from hres]
          exact ih _ _ (fun p hp' => hps p (List.mem_cons_of_mem pos hp'))
      · rw [if_neg hc]
        exact ih _ _ (fun p hp' => hps p (List.mem_cons_of_mem pos hp'))

theorem mm_min_pos_restores
    (child : Chess3D → Val → Val → Val × Chess3D) (alpha : Val) (pa pb : Int)
    (g : Chess3D)
    (hcp : g.current_player = Color.black)
    (hpb : pawns_bounded g pa pb) (hpb2 : 2 ≤ pb)
    (hchild : ∀ m, legal_move_of g Color.black m → ∀ a b,
      (child ((make_move g m).2) a b).2 = (make_move g m).2) :
    ∀ ps value beta, (∀ p ∈ ps, p ∈ allPositions) →
      (mm_min_pos child alpha ps value beta g).2 = g := by
  intro ps
  induction ps with
  | nil => intro value beta _; rfl
  | cons pos rest ih =>
    intro value beta hps
    simp only [mm_min_pos]
    cases hp : g.get_piece pos with
    | none => exact ih _ _ (fun p hp' => hps p (List.mem_cons_of_mem pos hp'))
    | some piece =>
      dsimp only
      by_cases hc : piece.color = Color.black
      · rw [if_pos hc]
        have hmsleg : ∀ m ∈ get_valid_moves g pos, legal_move_of g Color.black m := by
          intro m hm
          obtain ⟨h1, -, -, -⟩ := gvm_spec g pos piece hp m hm
          exact ⟨piece, h1 ▸ hp, hc, h1 ▸ hm, h1 ▸ hps pos (List.mem_cons_self pos rest)⟩
        have hres := mm_min_moves_restores child alpha pa pb g hcp hpb hpb2 hchild
          (get_valid_moves g pos) value beta hmsleg
        rcases hmm : mm_min_moves child alpha (get_valid_moves g pos) value beta g
          with ⟨v1, b1, g1, cut⟩
        rw [hmm] at hres
        cases cut with
        | true => exact hres
        | false =>
          dsimp only
          rw [show g1 = g from hres]
          exact ih _ _ (fun p hp' => hps p (List.mem_cons_of_mem pos hp'))
      · rw [if_neg hc]
        exact ih _ _ (fun p hp' => hps p (List.mem_cons_of_mem pos hp'))

theorem minimax_restores : ∀ (d : Nat) (pa pb : Int) (g : Chess3D) (alpha beta : Val)
    (maxi : Bool),
    g.current_player = side_of maxi →
    pawns_bounded g pa pb →
    pa + d ≤ 6 → (d : Int) + 1 ≤ pb → d ≤ 4 →
    (minimax g d alpha beta maxi).2 = g := by
  intro d
  induction d with
  | zero => intros; rfl
  | succ d ih =>
    intro pa pb g alpha beta maxi hcp hpb hpa hpbv hd4
    have hmax6 : max 3 (pa + 1) + (d : Int) ≤ 6 :=
      have h1 : max 3 (pa + 1) ≤ 6 - (d : Int) := max_le (by push_cast at hpa hpbv ⊢; omega)
        (by push_cast at hpa hpbv ⊢; omega)
      by omega
    have hmin1 : (d : Int) + 1 ≤ min 4 (pb - 1) :=
      le_min (by omega) (by push_cast at hpa hpbv ⊢; omega)
    cases maxi with
    | true =>
      have hcpw : g.current_player = Color.white := hcp
      simp only [minimax]
      apply mm_max_pos_restores _ beta pa pb g hcpw hpb
        (by push_cast at hpa; omega)
      · intro m hleg a b
        obtain ⟨piece, hpiece, hcolor', hmem, hfrom⟩ := hleg
        have hcolor : piece.color = g.current_player := by rw [hcolor', hcpw]
        apply ih (max 3 (pa + 1)) pb _ a b false
        · rw [make_move_player g m piece hpiece hcolor hmem, hcpw]
          rfl
        · exact pawns_bounded_after_white g m piece pa pb hpiece hcolor hcpw hmem hfrom hpb
            (by push_cast at hpa; omega)
        · exact hmax6
        · omega
        · omega
      · intro p hp
        exact hp
    | false =>
      have hcpb : g.current_player = Color.black := hcp
      simp only [minimax]
      apply mm_min_pos_restores _ alpha pa pb g hcpb hpb (by omega)
      · intro m hleg a b
        obtain ⟨piece, hpiece, hcolor', hmem, hfrom⟩ := hleg
        have hcolor : piece.color = g.current_player := by rw [hcolor', hcpb]
        apply ih pa (min 4 (pb - 1)) _ a b true
        · rw [make_move_player g m piece hpiece hcolor hmem, hcpb]
          rfl
        · exact pawns_bounded_after_black g m piece pa pb hpiece hcolor hcpb hmem hfrom hpb
            (by omega)
        · push_cast at hpa ⊢; omega
        · exact hmin1
        · omega
      · intro p hp
        exact hp

/-- C4 (amended): when the maximizing flag agrees with the side to move and
the board's pawn ranks rule out a promotion within the remaining depth (as
they do from the standard start for depth at most 4), `minimax` returns with
board, side to move and history exactly as at entry, on every path including
the pruning cutoff. -/
theorem minimax_frame_aligned (d : Nat) (pa pb : Int) (g : Chess3D) (alpha beta : Val)
    (maxi : Bool)
    (halign : g.current_player = side_of maxi)
    (hpb : pawns_bounded g pa pb)
    (hpa : pa + d ≤ 6) (hpbv : (d : Int) + 1 ≤ pb) (hd : d ≤ 4) :
    ((minimax g d alpha beta maxi).2).board = g.board ∧
    ((minimax g d alpha beta maxi).2).current_player = g.current_player ∧
    ((minimax g d alpha beta maxi).2).move_history = g.move_history := by
  rw [minimax_restores d pa pb g alpha beta maxi halign hpb hpa hpbv hd]
  exact ⟨rfl, rfl, rfl⟩

set_option maxRecDepth 8000 in
/-- C4 witness: the standard starting position searched at depth 3. -/
theorem minimax_frame_aligned_witness :
    initial_game.current_player = side_of true ∧
    pawns_bounded initial_game 1 6 ∧
    ((minimax initial_game 3 Val.ninf Val.pinf true).2).board = initial_game.board :=
  ⟨rfl, by decide,
   (minimax_frame_aligned 3 1 6 initial_game Val.ninf Val.pinf true rfl (by decide)
     (by decide) (by decide) (by decide)).1⟩

set_option maxRecDepth 8000 in
/-- C4 counterexample: with a white pawn on rank 6 the promotion move is
explored, `undo_move` does not demote the promoted queen, and `minimax`
depth 1 (aligned with the side to move, no time limit) returns with the
board changed: the pawn square now holds a queen. -/
theorem minimax_promotion_corrupts_state :
    promo_game.current_player = side_of true ∧
    promo_game.board ⟨0, 6, 0⟩ = some ⟨PieceType.pawn, Color.white⟩ ∧
    ((minimax promo_game 1 Val.ninf Val.pinf true).2).board ⟨0, 6, 0⟩ =
      some ⟨PieceType.queen, Color.white⟩ :=
  ⟨rfl, by decide, by decide⟩

theorem gbm_white_loop_some (d : Nat) :
    ∀ ms (best : Option Move) bv a b g, best.isSome = true →
      ((gbm_white_loop d ms best bv a b g).1).isSome = true := by
  intro ms
  induction ms with
  | nil => intro best bv a b g h; exact h
  | cons m rest ih =>
    intro best bv a b g h
    simp only [gbm_white_loop]
    split
    · exact ih _ _ _ _ _ rfl
    · exact ih _ _ _ _ _ h

theorem gbm_black_loop_some (d : Nat) :
    ∀ ms (best : Option Move) bv a b g, best.isSome = true →
      ((gbm_black_loop d ms best bv a b g).1).isSome = true := by
  intro ms
  induction ms with
  | nil => intro best bv a b g h; exact h
  | cons m rest ih =>
    intro best bv a b g h
    simp only [gbm_black_loop]
    split
    · exact ih _ _ _ _ _ rfl
    · exact ih _ _ _ _ _ h

/-- C9 (amended): with no time limit, `get_best_move` returns none whenever
there is no legal root move for the requested color; and at depth 1 a legal
root move always yields some move (the first root child scores finitely and
strictly improves the infinite initial bound).  The converse of the first
part fails at depth 3: see the counterexample. -/
theorem get_best_move_none_empty_some_depth1 (g : Chess3D) (color : Color) (d : Nat)
    (ms : List Move) (hperm : ms.Perm (legal_moves_for g color)) :
    (legal_moves_for g color = [] → (get_best_move g color d ms).1 = none) ∧
    (d = 1 → legal_moves_for g color ≠ [] →
      ((get_best_move g color d ms).1).isSome = true) := by
  constructor
  · intro hnil
    rw [hnil] at hperm
    rw [List.perm_nil] at hperm
    rw [hperm]
    by_cases hc : color = Color.white
    · rw [get_best_move, if_pos hc]
      rfl
    · rw [get_best_move, if_neg hc]
      rfl
  · intro hd hne
    cases hms : ms with
    | nil =>
      rw [hms] at hperm
      exact absurd (List.perm_nil.1 hperm.symm) hne
    | cons m rest =>
      subst hd
      by_cases hc : color = Color.white
      · rw [get_best_move, if_pos hc]
        dsimp only
        simp only [gbm_white_loop]
        rw [show minimax ((make_move g m).2) 0 Val.ninf Val.pinf false =
          (Val.fin (evaluate_position ((make_move g m).2)), (make_move g m).2) from rfl]
        rw [if_pos (show vlt Val.ninf (Val.fin (evaluate_position ((make_move g m).2))) = true
          from rfl)]
        exact gbm_white_loop_some 0 rest _ _ _ _ _ rfl
      · rw [get_best_move, if_neg hc]
        dsimp only
        simp only [gbm_black_loop]
        rw [show minimax ((make_move g m).2) 0 Val.ninf Val.pinf true =
          (Val.fin (evaluate_position ((make_move g m).2)), (make_move g m).2) from rfl]
        rw [if_pos (show vlt (Val.fin (evaluate_position ((make_move g m).2))) Val.pinf = true
          from rfl)]
        exact gbm_black_loop_some 0 rest _ _ _ _ _ rfl

/-- C9 witness: on the trap position at depth 1 a move is returned, and with
an empty move list (no legal root moves) none is returned. -/
theorem get_best_move_none_empty_some_depth1_witness :
    ((get_best_move trap_game Color.white 1
        (legal_moves_for trap_game Color.white)).1).isSome = true :=
  (get_best_move_none_empty_some_depth1 trap_game Color.white 1
    (legal_moves_for trap_game Color.white) (List.Perm.refl _)).2 rfl (by decide)

set_option maxRecDepth 20000 in
/-- C9 counterexample: White has a legal root move (the pawn push d4-d5 in
file 4), no time limit is configured, yet depth-3 `get_best_move` returns
none: after the pawn push Black can block the pawn, leaving White with no
reply, so the maximizing leaf keeps its initial -inf, the minimizing node
propagates -inf, and the root never improves on its -inf initial bound.
The root list has exactly one element, so every shuffle is this list. -/
theorem get_best_move_none_with_legal_move :
    legal_moves_for trap_game Color.white ≠ [] ∧
    (get_best_move trap_game Color.white 3
      (legal_moves_for trap_game Color.white)).1 = none :=
  ⟨by decide, by decide⟩

theorem vle_iff (a b : Val) : vle a b = true ↔ a ≤ b := Iff.rfl

theorem vlt_iff (a b : Val) : vlt a b = true ↔ a < b := Iff.rfl

theorem vmax_eq_max (a b : Val) : vmax a b = max a b := by
  rcases le_total a b with h | h
  · rw [max_eq_right h, vmax, if_pos (vle_iff a b |>.2 h)]
  · rcases eq_or_lt_of_le h with h1 | h2
    · rw [h1, max_self, vmax]
      split <;> rfl
    · rw [max_eq_left h, vmax, if_neg]
      exact fun hc => absurd (vle_iff a b |>.1 hc) (not_le_of_lt h2)

theorem vmin_eq_min (a b : Val) : vmin a b = min a b := by
  rcases le_total a b with h | h
  · rw [min_eq_left h, vmin, if_pos (vle_iff a b |>.2 h)]
  · rcases eq_or_lt_of_le h with h1 | h2
    · rw [h1, min_self, vmin]
      split <;> rfl
    · rw [min_eq_right h, vmin, if_neg]
      exact fun hc => absurd (vle_iff a b |>.1 hc) (not_le_of_lt h2)

theorem vmax_ninf (a : Val) : vmax Val.ninf a = a := by
  rw [vmax_eq_max, max_eq_right (Val.ninf_le a)]

theorem vmax_ninf_right (a : Val) : vmax a Val.ninf = a := by
  rw [vmax_eq_max, max_eq_left (Val.ninf_le a)]

theorem vmin_pinf (a : Val) : vmin Val.pinf a = a := by
  rw [vmin_eq_min, min_eq_right (Val.le_pinf a)]

theorem vmin_pinf_right (a : Val) : vmin a Val.pinf = a := by
  rw [vmin_eq_min, min_eq_left (Val.le_pinf a)]

theorem vlt_pinf_of_ne (a : Val) (h : a ≠ Val.pinf) : vlt a Val.pinf = true := by
  cases a with
  | ninf => rfl
  | fin n => rfl
  | pinf => exact absurd rfl h

theorem vlt_of_ninf_ne (a : Val) (h : a ≠ Val.ninf) : vlt Val.ninf a = true := by
  cases a with
  | ninf => exact absurd rfl h
  | fin n => rfl
  | pinf => rfl

theorem foldl_vmax_init (l : List Val) : ∀ i : Val,
    l.foldl vmax i = max i (l.foldl vmax Val.ninf) := by
  induction l with
  | nil => intro i; exact (max_eq_left (Val.ninf_le i)).symm
  | cons a t ih =>
    intro i
    show List.foldl vmax (vmax i a) t = max i (List.foldl vmax (vmax Val.ninf a) t)
    rw [ih (vmax i a), ih (vmax Val.ninf a), vmax_ninf, vmax_eq_max, max_assoc]

theorem foldl_vmin_init (l : List Val) : ∀ i : Val,
    l.foldl vmin i = min i (l.foldl vmin Val.pinf) := by
  induction l with
  | nil => intro i; exact (min_eq_left (Val.le_pinf i)).symm
  | cons a t ih =>
    intro i
    show List.foldl vmin (vmin i a) t = min i (List.foldl vmin (vmin Val.pinf a) t)
    rw [ih (vmin i a), ih (vmin Val.pinf a), vmin_pinf, vmin_eq_min, min_assoc]

theorem le_foldl_vmax (l : List Val) (i : Val) : i ≤ l.foldl vmax i := by
  rw [foldl_vmax_init]
  exact le_max_left _ _

theorem foldl_vmin_le (l : List Val) (i : Val) : l.foldl vmin i ≤ i := by
  rw [foldl_vmin_init]
  exact min_le_left _ _

theorem foldl_vmax_mono (l : List Val) (i j : Val) (h : i ≤ j) :
    l.foldl vmax i ≤ l.foldl vmax j := by
  rw [foldl_vmax_init l i, foldl_vmax_init l j]
  exact max_le_max h le_rfl

theorem foldl_vmin_mono (l : List Val) (i j : Val) (h : i ≤ j) :
    l.foldl vmin i ≤ l.foldl vmin j := by
  rw [foldl_vmin_init l i, foldl_vmin_init l j]
  exact min_le_min h le_rfl

theorem min_fold_step (beta F v1 S : Val) (h1 : min beta F ≤ v1) :
    min beta (max F S) ≤ min beta (max v1 S) := by
  rcases le_total F beta with h | h
  · rw [min_eq_right h] at h1
    exact min_le_min le_rfl (max_le_max h1 le_rfl)
  · rw [min_eq_left h] at h1
    have : beta ≤ max v1 S := le_trans h1 (le_max_left _ _)
    rw [min_eq_left this]
    exact min_le_left _ _

theorem max_fold_step (alpha0 F v1 S : Val) (h1 : v1 ≤ max alpha0 F) :
    max alpha0 (max v1 S) ≤ max alpha0 (max F S) := by
  refine max_le (le_max_left _ _) (max_le ?_ ?_)
  · exact le_trans h1 (max_le_max le_rfl (le_max_left _ _))
  · exact le_trans (le_max_right F S) (le_max_right _ _)

theorem max_fold_step_min (alpha F v1 S : Val) (h1 : v1 ≤ max alpha F) :
    max alpha (min v1 S) ≤ max alpha (min F S) := by
  rcases le_total alpha F with h | h
  · rw [max_eq_right h] at h1
    exact max_le_max le_rfl (min_le_min h1 le_rfl)
  · rw [max_eq_left h] at h1
    have hv : min v1 S ≤ alpha := le_trans (min_le_left _ _) h1
    rw [max_eq_left hv]
    exact le_max_left _ _

theorem min_fold_step_min (beta0 F v1 S : Val) (h1 : min beta0 F ≤ v1) :
    min beta0 (min F S) ≤ min beta0 (min v1 S) := by
  refine le_min (min_le_left _ _) (le_min ?_ ?_)
  · exact le_trans (min_le_min le_rfl (min_le_left _ _)) h1
  · exact le_trans (min_le_min le_rfl (min_le_right F S)) (min_le_right _ _)

theorem mm_max_moves_bounds
    (d : Nat) (beta : Val) (g : Chess3D)
    (hundo : ∀ m, legal_move_of g Color.white m →
      undo_move ((make_move g m).2) = (true, g))
    (hstate : ∀ m, legal_move_of g Color.white m → ∀ a b,
      (minimax ((make_move g m).2) d a b false).2 = (make_move g m).2)
    (hbounds : ∀ m, legal_move_of g Color.white m → ∀ a b, vlt a b = true →
      (minimax ((make_move g m).2) d a b false).1 ≤
        max a (minimax_ref d ((make_move g m).2) false) ∧
      min b (minimax_ref d ((make_move g m).2) false) ≤
        (minimax ((make_move g m).2) d a b false).1) :
    ∀ ms value alpha alpha0 r,
      (∀ m ∈ ms, legal_move_of g Color.white m) →
      alpha = max alpha0 value →
      vlt alpha beta = true →
      r = mm_max_moves (fun g1 a b => minimax g1 d a b false) beta ms value alpha g →
      (r.1 ≤ max alpha0
          ((ms.map fun m => minimax_ref d ((make_move g m).2) false).foldl vmax value) ∧
       min beta ((ms.map fun m => minimax_ref d ((make_move g m).2) false).foldl vmax value)
          ≤ r.1 ∧
       r.2.1 = max alpha0 r.1 ∧
       r.2.2.1 = g ∧
       (r.2.2.2 = false → vlt r.2.1 beta = true) ∧
       (r.2.2.2 = true → beta ≤ r.1)) := by
  intro ms
  induction ms with
  | nil =>
    intro value alpha alpha0 r _ halpha hab hr
    subst hr
    simp only [mm_max_moves, List.map_nil]
    exact ⟨le_max_right _ _, min_le_right _ _, halpha, trivial, fun _ => hab,
      fun h => Bool.noConfusion h⟩
  | cons m rest ih =>
    intro value alpha alpha0 r hms halpha hab hr
    have hleg := hms m (List.mem_cons_self m rest)
    have hK := hbounds m hleg alpha beta hab
    subst hr
    simp only [mm_max_moves, List.map_cons, List.foldl_cons]
    rw [hstate m hleg alpha beta, hundo m hleg]
    dsimp only
    have ha0b : alpha0 < beta :=
      lt_of_le_of_lt (by rw [halpha]; exact le_max_left _ _) hab
    have hK1 : (minimax ((make_move g m).2) d alpha beta false).1 ≤
        max alpha (minimax_ref d ((make_move g m).2) false) := hK.1
    have hK2 : min beta (minimax_ref d ((make_move g m).2) false) ≤
        (minimax ((make_move g m).2) d alpha beta false).1 := hK.2
    have hvv1 : value ≤ vmax value (minimax ((make_move g m).2) d alpha beta false).1 := by
      rw [vmax_eq_max]; exact le_max_left _ _
    have hr1v1 : (minimax ((make_move g m).2) d alpha beta false).1 ≤
        vmax value (minimax ((make_move g m).2) d alpha beta false).1 := by
      rw [vmax_eq_max]; exact le_max_right _ _
    have halpha1 : vmax alpha (vmax value (minimax ((make_move g m).2) d alpha beta false).1) =
        max alpha0 (vmax value (minimax ((make_move g m).2) d alpha beta false).1) := by
      rw [vmax_eq_max, halpha, max_assoc]
      congr 1
      rw [vmax_eq_max, ← max_assoc, max_self]
    -- the head fold value and its basic bounds
    have hvF : value ≤ (rest.map fun m1 => minimax_ref d ((make_move g m1).2) false).foldl vmax
        (vmax value (minimax_ref d ((make_move g m).2) false)) :=
      le_trans (by rw [vmax_eq_max]; exact le_max_left _ _) (le_foldl_vmax _ _)
    have htF : minimax_ref d ((make_move g m).2) false ≤
        (rest.map fun m1 => minimax_ref d ((make_move g m1).2) false).foldl vmax
          (vmax value (minimax_ref d ((make_move g m).2) false)) :=
      le_trans (by rw [vmax_eq_max]; exact le_max_right _ _) (le_foldl_vmax _ _)
    have hv1F : vmax value (minimax ((make_move g m).2) d alpha beta false).1 ≤
        max alpha0 (vmax value (minimax_ref d ((make_move g m).2) false)) := by
      rw [vmax_eq_max, vmax_eq_max]
      refine max_le (le_trans (le_max_left _ _) (le_max_right _ _)) ?_
      refine le_trans hK1 ?_
      rw [halpha]
      refine max_le (max_le (le_max_left _ _)
        (le_trans (le_max_left _ _) (le_max_right _ _))) ?_
      exact le_trans (le_max_right _ _) (le_max_right _ _)
    have hv1lo : min beta (vmax value (minimax_ref d ((make_move g m).2) false)) ≤
        vmax value (minimax ((make_move g m).2) d alpha beta false).1 := by
      rw [vmax_eq_max, vmax_eq_max]
      rcases le_total value (minimax_ref d ((make_move g m).2) false) with h | h
      · rw [max_eq_right h]
        exact le_trans hK2 (le_max_right _ _)
      · rw [max_eq_left h]
        exact le_trans (min_le_right _ _) (le_max_left _ _)
    split
    · next hcut =>
      -- cutoff: beta ≤ alpha1, return (value1, alpha1, g, true)
      dsimp only
      have hbv1 : beta ≤ vmax value (minimax ((make_move g m).2) d alpha beta false).1 := by
        by_contra hnb
        have hlt : vmax value (minimax ((make_move g m).2) d alpha beta false).1 < beta :=
          lt_of_not_le hnb
        have : max alpha0 (vmax value (minimax ((make_move g m).2) d alpha beta false).1)
            < beta := max_lt ha0b hlt
        rw [← halpha1] at this
        exact absurd (vle_iff _ _ |>.1 hcut) (not_le_of_lt this)
      refine ⟨?_, ?_, ?_, rfl, fun h => Bool.noConfusion h, fun _ => hbv1⟩
      · refine le_trans hv1F ?_
        refine max_le (le_max_left _ _) ?_
        refine le_trans ?_ (le_max_right _ _)
        exact le_foldl_vmax _ _
      · exact le_trans (min_le_left _ _) hbv1
      · exact halpha1
    · next hncut =>
      have hab1 : vlt (vmax alpha (vmax value
          (minimax ((make_move g m).2) d alpha beta false).1)) beta = true := by
        rw [vlt_iff]
        exact lt_of_not_le fun hle => hncut (vle_iff _ _ |>.2 hle)
      have hih := ih (vmax value (minimax ((make_move g m).2) d alpha beta false).1)
        (vmax alpha (vmax value (minimax ((make_move g m).2) d alpha beta false).1)) alpha0 _
        (fun m1 hm1 => hms m1 (List.mem_cons_of_mem m hm1)) halpha1 hab1 rfl
      obtain ⟨hi1, hi2, hi3, hi4, hi5, hi6⟩ := hih
      refine ⟨?_, ?_, hi3, hi4, hi5, hi6⟩
      · refine le_trans hi1 ?_
        rw [foldl_vmax_init _ (vmax value (minimax ((make_move g m).2) d alpha beta false).1),
          foldl_vmax_init _ (vmax value (minimax_ref d ((make_move g m).2) false))]
        exact max_fold_step alpha0 _ _ _ hv1F
      · refine le_trans ?_ hi2
        rw [foldl_vmax_init _ (vmax value (minimax ((make_move g m).2) d alpha beta false).1),
          foldl_vmax_init _ (vmax value (minimax_ref d ((make_move g m).2) false))]
        exact min_fold_step beta _ _ _ hv1lo

theorem mm_min_moves_bounds
    (d : Nat) (alpha : Val) (g : Chess3D)
    (hundo : ∀ m, legal_move_of g Color.black m →
      undo_move ((make_move g m).2) = (true, g))
    (hstate : ∀ m, legal_move_of g Color.black m → ∀ a b,
      (minimax ((make_move g m).2) d a b true).2 = (make_move g m).2)
    (hbounds : ∀ m, legal_move_of g Color.black m → ∀ a b, vlt a b = true →
      (minimax ((make_move g m).2) d a b true).1 ≤
        max a (minimax_ref d ((make_move g m).2) true) ∧
      min b (minimax_ref d ((make_move g m).2) true) ≤
        (minimax ((make_move g m).2) d a b true).1) :
    ∀ ms value beta beta0 r,
      (∀ m ∈ ms, legal_move_of g Color.black m) →
      beta = min beta0 value →
      vlt alpha beta = true →
      r = mm_min_moves (fun g1 a b => minimax g1 d a b true) alpha ms value beta g →
      (min beta0 ((ms.map fun m => minimax_ref d ((make_move g m).2) true).foldl vmin value)
          ≤ r.1 ∧
       r.1 ≤ max alpha
          ((ms.map fun m => minimax_ref d ((make_move g m).2) true).foldl vmin value) ∧
       r.2.1 = min beta0 r.1 ∧
       r.2.2.1 = g ∧
       (r.2.2.2 = false → vlt alpha r.2.1 = true) ∧
       (r.2.2.2 = true → r.1 ≤ alpha)) := by
  intro ms
  induction ms with
  | nil =>
    intro value beta beta0 r _ hbeta hab hr
    subst hr
    simp only [mm_min_moves, List.map_nil]
    exact ⟨min_le_right _ _, le_max_right _ _, hbeta, trivial, fun _ => hab,
      fun h => Bool.noConfusion h⟩
  | cons m rest ih =>
    intro value beta beta0 r hms hbeta hab hr
    have hleg := hms m (List.mem_cons_self m rest)
    have hK := hbounds m hleg alpha beta hab
    subst hr
    simp only [mm_min_moves, List.map_cons, List.foldl_cons]
    rw [hstate m hleg alpha beta, hundo m hleg]
    dsimp only
    have hb0a : alpha < beta0 :=
      lt_of_lt_of_le hab (by rw [hbeta]; exact min_le_left _ _)
    have hK1 : (minimax ((make_move g m).2) d alpha beta true).1 ≤
        max alpha (minimax_ref d ((make_move g m).2) true) := hK.1
    have hK2 : min beta (minimax_ref d ((make_move g m).2) true) ≤
        (minimax ((make_move g m).2) d alpha beta true).1 := hK.2
    have hv1v : vmin value (minimax ((make_move g m).2) d alpha beta true).1 ≤ value := by
      rw [vmin_eq_min]; exact min_le_left _ _
    have hv1r1 : vmin value (minimax ((make_move g m).2) d alpha beta true).1 ≤
        (minimax ((make_move g m).2) d alpha beta true).1 := by
      rw [vmin_eq_min]; exact min_le_right _ _
    have hbeta1 : vmin beta (vmin value (minimax ((make_move g m).2) d alpha beta true).1) =
        min beta0 (vmin value (minimax ((make_move g m).2) d alpha beta true).1) := by
      rw [vmin_eq_min, hbeta, min_assoc]
      congr 1
      rw [vmin_eq_min, ← min_assoc, min_self]
    have hFv : (rest.map fun m1 => minimax_ref d ((make_move g m1).2) true).foldl vmin
        (vmin value (minimax_ref d ((make_move g m).2) true)) ≤ value :=
      le_trans (foldl_vmin_le _ _) (by rw [vmin_eq_min]; exact min_le_left _ _)
    have hv1F : min beta0 (vmin value (minimax_ref d ((make_move g m).2) true)) ≤
        vmin value (minimax ((make_move g m).2) d alpha beta true).1 := by
      rw [vmin_eq_min, vmin_eq_min]
      refine le_min (le_trans (min_le_right _ _) (min_le_left _ _)) ?_
      refine le_trans ?_ hK2
      rw [hbeta]
      refine le_min (le_min (min_le_left _ _)
        (le_trans (min_le_right _ _) (min_le_left _ _))) ?_
      exact le_trans (min_le_right _ _) (min_le_right _ _)
    have hv1hi : vmin value (minimax ((make_move g m).2) d alpha beta true).1 ≤
        max alpha (vmin value (minimax_ref d ((make_move g m).2) true)) := by
      rw [vmin_eq_min, vmin_eq_min]
      rcases le_total (minimax_ref d ((make_move g m).2) true) value with h | h
      · rw [min_eq_right h]
        exact le_trans (min_le_right _ _) hK1
      · rw [min_eq_left h]
        exact le_trans (min_le_left _ _) (le_max_right _ _)
    split
    · next hcut =>
      dsimp only
      have hv1a : vmin value (minimax ((make_move g m).2) d alpha beta true).1 ≤ alpha := by
        by_contra hnb
        have hlt : alpha < vmin value (minimax ((make_move g m).2) d alpha beta true).1 :=
          lt_of_not_le hnb
        have : alpha < min beta0
            (vmin value (minimax ((make_move g m).2) d alpha beta true).1) :=
          lt_min hb0a hlt
        rw [← hbeta1] at this
        exact absurd (vle_iff _ _ |>.1 hcut) (not_le_of_lt this)
      refine ⟨?_, ?_, ?_, rfl, fun h => Bool.noConfusion h, fun _ => hv1a⟩
      · refine le_trans ?_ hv1F
        refine le_min (min_le_left _ _) ?_
        refine le_trans (min_le_right _ _) ?_
        exact foldl_vmin_le _ _
      · exact le_trans hv1a (le_max_left _ _)
      · exact hbeta1
    · next hncut =>
      have hab1 : vlt alpha (vmin beta (vmin value
          (minimax ((make_move g m).2) d alpha beta true).1)) = true := by
        rw [vlt_iff]
        exact lt_of_not_le fun hle => hncut (vle_iff _ _ |>.2 hle)
      have hih := ih (vmin value (minimax ((make_move g m).2) d alpha beta true).1)
        (vmin beta (vmin value (minimax ((make_move g m).2) d alpha beta true).1)) beta0 _
        (fun m1 hm1 => hms m1 (List.mem_cons_of_mem m hm1)) hbeta1 hab1 rfl
      obtain ⟨hi1, hi2, hi3, hi4, hi5, hi6⟩ := hih
      refine ⟨?_, ?_, hi3, hi4, hi5, hi6⟩
      · refine le_trans ?_ hi1
        rw [foldl_vmin_init _ (vmin value (minimax ((make_move g m).2) d alpha beta true).1),
          foldl_vmin_init _ (vmin value (minimax_ref d ((make_move g m).2) true))]
        exact min_fold_step_min beta0 _ _ _ hv1F
      · refine le_trans hi2 ?_
        rw [foldl_vmin_init _ (vmin value (minimax ((make_move g m).2) d alpha beta true).1),
          foldl_vmin_init _ (vmin value (minimax_ref d ((make_move g m).2) true))]
        exact max_fold_step_min alpha _ _ _ hv1hi

theorem legal_moves_for_eq (g : Chess3D) (c : Color) :
    legal_moves_for g c = allPositions.flatMap (moves_at g c) := rfl

theorem mm_max_pos_bounds
    (d : Nat) (beta : Val) (g : Chess3D)
    (hundo : ∀ m, legal_move_of g Color.white m →
      undo_move ((make_move g m).2) = (true, g))
    (hstate : ∀ m, legal_move_of g Color.white m → ∀ a b,
      (minimax ((make_move g m).2) d a b false).2 = (make_move g m).2)
    (hbounds : ∀ m, legal_move_of g Color.white m → ∀ a b, vlt a b = true →
      (minimax ((make_move g m).2) d a b false).1 ≤
        max a (minimax_ref d ((make_move g m).2) false) ∧
      min b (minimax_ref d ((make_move g m).2) false) ≤
        (minimax ((make_move g m).2) d a b false).1) :
    ∀ ps value alpha alpha0 r,
      (∀ p ∈ ps, p ∈ allPositions) →
      alpha = max alpha0 value →
      vlt alpha beta = true →
      r = mm_max_pos (fun g1 a b => minimax g1 d a b false) beta ps value alpha g →
      (r.1 ≤ max alpha0 (((ps.flatMap (moves_at g Color.white)).map fun m =>
          minimax_ref d ((make_move g m).2) false).foldl vmax value) ∧
       min beta (((ps.flatMap (moves_at g Color.white)).map fun m =>
          minimax_ref d ((make_move g m).2) false).foldl vmax value) ≤ r.1 ∧
       r.2 = g) := by
  intro ps
  induction ps with
  | nil =>
    intro value alpha alpha0 r _ halpha hab hr
    subst hr
    simp only [mm_max_pos, List.flatMap_nil, List.map_nil, List.foldl_nil]
    exact ⟨le_max_right _ _, min_le_right _ _, trivial⟩
  | cons pos rest ih =>
    intro value alpha alpha0 r hps halpha hab hr
    subst hr
    simp only [mm_max_pos, List.flatMap_cons, List.map_append, List.foldl_append]
    cases hp : g.get_piece pos with
    | none =>
      have hmv : moves_at g Color.white pos = [] := by rw [moves_at, hp]
      rw [hmv]
      simp only [List.map_nil, List.foldl_nil]
      exact ih value alpha alpha0 _ (fun p hq => hps p (List.mem_cons_of_mem pos hq))
        halpha hab rfl
    | some piece =>
      dsimp only
      by_cases hc : piece.color = Color.white
      · rw [if_pos hc]
        have hmv : moves_at g Color.white pos = get_valid_moves g pos := by
          rw [moves_at, hp]
          dsimp only
          rw [if_pos hc]
        rw [hmv]
        have hmsleg : ∀ m ∈ get_valid_moves g pos, legal_move_of g Color.white m := by
          intro m hm
          obtain ⟨h1, -, -, -⟩ := gvm_spec g pos piece hp m hm
          exact ⟨piece, h1 ▸ hp, hc, h1 ▸ hm, h1 ▸ hps pos (List.mem_cons_self pos rest)⟩
        rcases hmm : mm_max_moves (fun g1 a b => minimax g1 d a b false) beta
          (get_valid_moves g pos) value alpha g with ⟨v1, a1, g1, cut⟩
        obtain ⟨hi1, hi2, hi3, hi4, hi5, hi6⟩ := mm_max_moves_bounds d beta g hundo hstate
          hbounds (get_valid_moves g pos) value alpha alpha0 _ hmsleg halpha hab hmm.symm
        dsimp only at hi1 hi2 hi3 hi4 hi5 hi6
        cases cut with
        | true =>
          dsimp only
          refine ⟨?_, ?_, hi4⟩
          · exact le_trans hi1 (max_le_max le_rfl (le_foldl_vmax _ _))
          · exact le_trans (min_le_left _ _) (hi6 rfl)
        | false =>
          dsimp only
          rw [hi4]
          obtain ⟨hj1, hj2, hj3⟩ := ih v1 a1 alpha0 _
            (fun p hq => hps p (List.mem_cons_of_mem pos hq)) hi3 (hi5 rfl) rfl
          refine ⟨?_, ?_, hj3⟩
          · refine le_trans hj1 ?_
            rw [foldl_vmax_init _ v1, foldl_vmax_init _ (((get_valid_moves g pos).map fun m =>
              minimax_ref d ((make_move g m).2) false).foldl vmax value)]
            exact max_fold_step alpha0 _ _ _ hi1
          · refine le_trans ?_ hj2
            rw [foldl_vmax_init _ v1, foldl_vmax_init _ (((get_valid_moves g pos).map fun m =>
              minimax_ref d ((make_move g m).2) false).foldl vmax value)]
            exact min_fold_step beta _ _ _ hi2
      · rw [if_neg hc]
        have hmv : moves_at g Color.white pos = [] := by
          rw [moves_at, hp]
          dsimp only
          rw [if_neg hc]
        rw [hmv]
        simp only [List.map_nil, List.foldl_nil]
        exact ih value alpha alpha0 _ (fun p hq => hps p (List.mem_cons_of_mem pos hq))
          halpha hab rfl

theorem mm_min_pos_bounds
    (d : Nat) (alpha : Val) (g : Chess3D)
    (hundo : ∀ m, legal_move_of g Color.black m →
      undo_move ((make_move g m).2) = (true, g))
    (hstate : ∀ m, legal_move_of g Color.black m → ∀ a b,
      (minimax ((make_move g m).2) d a b true).2 = (make_move g m).2)
    (hbounds : ∀ m, legal_move_of g Color.black m → ∀ a b, vlt a b = true →
      (minimax ((make_move g m).2) d a b true).1 ≤
        max a (minimax_ref d ((make_move g m).2) true) ∧
      min b (minimax_ref d ((make_move g m).2) true) ≤
        (minimax ((make_move g m).2) d a b true).1) :
    ∀ ps value beta beta0 r,
      (∀ p ∈ ps, p ∈ allPositions) →
      beta = min beta0 value →
      vlt alpha beta = true →
      r = mm_min_pos (fun g1 a b => minimax g1 d a b true) alpha ps value beta g →
      (min beta0 (((ps.flatMap (moves_at g Color.black)).map fun m =>
          minimax_ref d ((make_move g m).2) true).foldl vmin value) ≤ r.1 ∧
       r.1 ≤ max alpha (((ps.flatMap (moves_at g Color.black)).map fun m =>
          minimax_ref d ((make_move g m).2) true).foldl vmin value) ∧
       r.2 = g) := by
  intro ps
  induction ps with
  | nil =>
    intro value beta beta0 r _ hbeta hab hr
    subst hr
    simp only [mm_min_pos, List.flatMap_nil, List.map_nil, List.foldl_nil]
    exact ⟨min_le_right _ _, le_max_right _ _, trivial⟩
  | cons pos rest ih =>
    intro value beta beta0 r hps hbeta hab hr
    subst hr
    simp only [mm_min_pos, List.flatMap_cons, List.map_append, List.foldl_append]
    cases hp : g.get_piece pos with
    | none =>
      have hmv : moves_at g Color.black pos = [] := by rw [moves_at, hp]
      rw [hmv]
      simp only [List.map_nil, List.foldl_nil]
      exact ih value beta beta0 _ (fun p hq => hps p (List.mem_cons_of_mem pos hq))
        hbeta hab rfl
    | some piece =>
      dsimp only
      by_cases hc : piece.color = Color.black
      · rw [if_pos hc]
        have hmv : moves_at g Color.black pos = get_valid_moves g pos := by
          rw [moves_at, hp]
          dsimp only
          rw [if_pos hc]
        rw [hmv]
        have hmsleg : ∀ m ∈ get_valid_moves g pos, legal_move_of g Color.black m := by
          intro m hm
          obtain ⟨h1, -, -, -⟩ := gvm_spec g pos piece hp m hm
          exact ⟨piece, h1 ▸ hp, hc, h1 ▸ hm, h1 ▸ hps pos (List.mem_cons_self pos rest)⟩
        rcases hmm : mm_min_moves (fun g1 a b => minimax g1 d a b true) alpha
          (get_valid_moves g pos) value beta g with ⟨v1, b1, g1, cut⟩
        obtain ⟨hi1, hi2, hi3, hi4, hi5, hi6⟩ := mm_min_moves_bounds d alpha g hundo hstate
          hbounds (get_valid_moves g pos) value beta beta0 _ hmsleg hbeta hab hmm.symm
        dsimp only at hi1 hi2 hi3 hi4 hi5 hi6
        cases cut with
        | true =>
          dsimp only
          refine ⟨?_, ?_, hi4⟩
          · exact le_trans (min_le_min le_rfl (foldl_vmin_mono _ _ _ le_rfl)) (le_trans
              (min_le_min le_rfl (foldl_vmin_le _ _)) hi1)
          · exact le_trans (hi6 rfl) (le_max_left _ _)
        | false =>
          dsimp only
          rw [hi4]
          obtain ⟨hj1, hj2, hj3⟩ := ih v1 b1 beta0 _
            (fun p hq => hps p (List.mem_cons_of_mem pos hq)) hi3 (hi5 rfl) rfl
          refine ⟨?_, ?_, hj3⟩
          · refine le_trans ?_ hj1
            rw [foldl_vmin_init _ v1, foldl_vmin_init _ (((get_valid_moves g pos).map fun m =>
              minimax_ref d ((make_move g m).2) true).foldl vmin value)]
            exact min_fold_step_min beta0 _ _ _ hi1
          · refine le_trans hj2 ?_
            rw [foldl_vmin_init _ v1, foldl_vmin_init _ (((get_valid_moves g pos).map fun m =>
              minimax_ref d ((make_move g m).2) true).foldl vmin value)]
            exact max_fold_step_min alpha _ _ _ hi2
      · rw [if_neg hc]
        have hmv : moves_at g Color.black pos = [] := by
          rw [moves_at, hp]
          dsimp only
          rw [if_neg hc]
        rw [hmv]
        simp only [List.map_nil, List.foldl_nil]
        exact ih value beta beta0 _ (fun p hq => hps p (List.mem_cons_of_mem pos hq))
          hbeta hab rfl

theorem minimax_bounds : ∀ (d : Nat) (pa pb : Int) (g : Chess3D) (alpha beta : Val)
    (maxi : Bool),
    g.current_player = side_of maxi →
    pawns_bounded g pa pb →
    pa + d ≤ 6 → (d : Int) + 1 ≤ pb → d ≤ 4 →
    vlt alpha beta = true →
    ((minimax g d alpha beta maxi).1 ≤ max alpha (minimax_ref d g maxi) ∧
     min beta (minimax_ref d g maxi) ≤ (minimax g d alpha beta maxi).1) := by
  intro d
  induction d with
  | zero =>
    intro pa pb g alpha beta maxi _ _ _ _ _ _
    simp only [minimax, minimax_ref]
    exact ⟨le_max_right _ _, min_le_right _ _⟩
  | succ d ih =>
    intro pa pb g alpha beta maxi hcp hpb hpa hpbv hd4 hab
    have hmax6 : max 3 (pa + 1) + (d : Int) ≤ 6 :=
      have h1 : max 3 (pa + 1) ≤ 6 - (d : Int) := max_le (by push_cast at hpa hpbv ⊢; omega)
        (by push_cast at hpa hpbv ⊢; omega)
      by omega
    have hmin1 : (d : Int) + 1 ≤ min 4 (pb - 1) :=
      le_min (by omega) (by push_cast at hpa hpbv ⊢; omega)
    cases maxi with
    | true =>
      have hcpw : g.current_player = Color.white := hcp
      have hundo : ∀ m, legal_move_of g Color.white m →
          undo_move ((make_move g m).2) = (true, g) := by
        intro m hleg
        obtain ⟨piece, hpiece, hcolor', hmem, hfrom⟩ := hleg
        have hcolor : piece.color = g.current_player := by rw [hcolor', hcpw]
        exact make_undo_exact g m piece hpiece hcolor hmem
          (white_move_no_promo g m piece pa pb hpiece hcolor hcpw hmem hfrom hpb
            (by push_cast at hpa; omega))
      have hstate : ∀ m, legal_move_of g Color.white m → ∀ a b,
          (minimax ((make_move g m).2) d a b false).2 = (make_move g m).2 := by
        intro m hleg a b
        obtain ⟨piece, hpiece, hcolor', hmem, hfrom⟩ := hleg
        have hcolor : piece.color = g.current_player := by rw [hcolor', hcpw]
        refine minimax_restores d (max 3 (pa + 1)) pb _ a b false ?_ ?_ hmax6 (by omega)
          (by omega)
        · rw [make_move_player g m piece hpiece hcolor hmem, hcpw]
          rfl
        · exact pawns_bounded_after_white g m piece pa pb hpiece hcolor hcpw hmem hfrom hpb
            (by push_cast at hpa; omega)
      have hbounds : ∀ m, legal_move_of g Color.white m → ∀ a b, vlt a b = true →
          (minimax ((make_move g m).2) d a b false).1 ≤
            max a (minimax_ref d ((make_move g m).2) false) ∧
          min b (minimax_ref d ((make_move g m).2) false) ≤
            (minimax ((make_move g m).2) d a b false).1 := by
        intro m hleg a b hab1
        obtain ⟨piece, hpiece, hcolor', hmem, hfrom⟩ := hleg
        have hcolor : piece.color = g.current_player := by rw [hcolor', hcpw]
        refine ih (max 3 (pa + 1)) pb _ a b false ?_ ?_ hmax6 (by omega) (by omega) hab1
        · rw [make_move_player g m piece hpiece hcolor hmem, hcpw]
          rfl
        · exact pawns_bounded_after_white g m piece pa pb hpiece hcolor hcpw hmem hfrom hpb
            (by push_cast at hpa; omega)
      simp only [minimax, minimax_ref, if_true]
      rw [legal_moves_for_eq]
      obtain ⟨h1, h2, -⟩ := mm_max_pos_bounds d beta g hundo hstate hbounds allPositions
        Val.ninf alpha alpha _ (fun p hp => hp) (max_eq_left (Val.ninf_le alpha)).symm hab rfl
      exact ⟨h1, h2⟩
    | false =>
      have hcpb : g.current_player = Color.black := hcp
      have hundo : ∀ m, legal_move_of g Color.black m →
          undo_move ((make_move g m).2) = (true, g) := by
        intro m hleg
        obtain ⟨piece, hpiece, hcolor', hmem, hfrom⟩ := hleg
        have hcolor : piece.color = g.current_player := by rw [hcolor', hcpb]
        exact make_undo_exact g m piece hpiece hcolor hmem
          (black_move_no_promo g m piece pa pb hpiece hcolor hcpb hmem hfrom hpb (by omega))
      have hstate : ∀ m, legal_move_of g Color.black m → ∀ a b,
          (minimax ((make_move g m).2) d a b true).2 = (make_move g m).2 := by
        intro m hleg a b
        obtain ⟨piece, hpiece, hcolor', hmem, hfrom⟩ := hleg
        have hcolor : piece.color = g.current_player := by rw [hcolor', hcpb]
        refine minimax_restores d pa (min 4 (pb - 1)) _ a b true ?_ ?_
          (by push_cast at hpa ⊢; omega) hmin1 (by omega)
        · rw [make_move_player g m piece hpiece hcolor hmem, hcpb]
          rfl
        · exact pawns_bounded_after_black g m piece pa pb hpiece hcolor hcpb hmem hfrom hpb
            (by omega)
      have hbounds : ∀ m, legal_move_of g Color.black m → ∀ a b, vlt a b = true →
          (minimax ((make_move g m).2) d a b true).1 ≤
            max a (minimax_ref d ((make_move g m).2) true) ∧
          min b (minimax_ref d ((make_move g m).2) true) ≤
            (minimax ((make_move g m).2) d a b true).1 := by
        intro m hleg a b hab1
        obtain ⟨piece, hpiece, hcolor', hmem, hfrom⟩ := hleg
        have hcolor : piece.color = g.current_player := by rw [hcolor', hcpb]
        refine ih pa (min 4 (pb - 1)) _ a b true ?_ ?_ (by push_cast at hpa ⊢; omega) hmin1
          (by omega) hab1
        · rw [make_move_player g m piece hpiece hcolor hmem, hcpb]
          rfl
        · exact pawns_bounded_after_black g m piece pa pb hpiece hcolor hcpb hmem hfrom hpb
            (by omega)
      simp only [minimax, minimax_ref]
      rw [if_neg (by exact fun h => Bool.noConfusion h), legal_moves_for_eq]
      obtain ⟨h1, h2, -⟩ := mm_min_pos_bounds d alpha g hundo hstate hbounds allPositions
        Val.pinf beta beta _ (fun p hp => hp) (min_eq_left (Val.le_pinf beta)).symm hab rfl
      exact ⟨h2, h1⟩

theorem vlt_pinf_left (a : Val) : vlt Val.pinf a = false := by
  cases a <;> rfl

theorem vmax_pinf (a : Val) : vmax Val.pinf a = Val.pinf := by
  rw [vmax_eq_max, max_eq_left (Val.le_pinf a)]

theorem gbm_white_loop_equiv (d : Nat) (g : Chess3D)
    (hundo : ∀ m, legal_move_of g Color.white m →
      undo_move ((make_move g m).2) = (true, g))
    (hstate : ∀ m, legal_move_of g Color.white m → ∀ a b,
      (minimax ((make_move g m).2) d a b false).2 = (make_move g m).2)
    (hbounds : ∀ m, legal_move_of g Color.white m → ∀ a b, vlt a b = true →
      (minimax ((make_move g m).2) d a b false).1 ≤
        max a (minimax_ref d ((make_move g m).2) false) ∧
      min b (minimax_ref d ((make_move g m).2) false) ≤
        (minimax ((make_move g m).2) d a b false).1) :
    ∀ ms best bv, (∀ m ∈ ms, legal_move_of g Color.white m) →
      gbm_white_loop d ms best bv bv Val.pinf g =
        ((gbm_ref_white g d ms best bv).1, (gbm_ref_white g d ms best bv).2, g) := by
  intro ms
  induction ms with
  | nil => intro best bv _; rfl
  | cons m rest ih =>
    intro best bv hms
    have hleg := hms m (List.mem_cons_self m rest)
    simp only [gbm_white_loop, gbm_ref_white]
    rw [hstate m hleg bv Val.pinf, hundo m hleg]
    dsimp only
    by_cases hbp : bv = Val.pinf
    · subst hbp
      rw [if_neg (fun h => by rw [vlt_pinf_left] at h; exact Bool.noConfusion h),
        if_neg (fun h => by rw [vlt_pinf_left] at h; exact Bool.noConfusion h)]
      dsimp only
      rw [vmax_pinf]
      exact ih best Val.pinf (fun m1 hm1 => hms m1 (List.mem_cons_of_mem m hm1))
    · have hab : vlt bv Val.pinf = true := vlt_pinf_of_ne bv hbp
      have hK := hbounds m hleg bv Val.pinf hab
      have hK1 : (minimax ((make_move g m).2) d bv Val.pinf false).1 ≤
          max bv (minimax_ref d ((make_move g m).2) false) := hK.1
      have hK2 : minimax_ref d ((make_move g m).2) false ≤
          (minimax ((make_move g m).2) d bv Val.pinf false).1 := by
        have := hK.2
        rwa [min_eq_right (Val.le_pinf _)] at this
      by_cases hlt : bv < minimax_ref d ((make_move g m).2) false
      · have hr1 : (minimax ((make_move g m).2) d bv Val.pinf false).1 =
            minimax_ref d ((make_move g m).2) false :=
          le_antisymm (le_trans hK1 (by rw [max_eq_right (le_of_lt hlt)])) hK2
        rw [if_pos (show vlt bv (minimax ((make_move g m).2) d bv Val.pinf false).1 = true by
          rw [vlt_iff, hr1]; exact hlt)]
        rw [if_pos (show vlt bv (minimax_ref d ((make_move g m).2) false) = true by
          rw [vlt_iff]; exact hlt)]
        dsimp only
        rw [show vmax bv (minimax ((make_move g m).2) d bv Val.pinf false).1 =
          (minimax ((make_move g m).2) d bv Val.pinf false).1 by
          rw [vmax_eq_max, hr1, max_eq_right (le_of_lt hlt)]]
        rw [hr1]
        exact ih (some m) _ (fun m1 hm1 => hms m1 (List.mem_cons_of_mem m hm1))
      · have htv : minimax_ref d ((make_move g m).2) false ≤ bv := le_of_not_lt hlt
        have hr1le : (minimax ((make_move g m).2) d bv Val.pinf false).1 ≤ bv :=
          le_trans hK1 (by rw [max_eq_left htv])
        rw [if_neg (fun h => absurd (vlt_iff _ _ |>.1 h) (not_lt_of_le hr1le)),
          if_neg (fun h => hlt (vlt_iff _ _ |>.1 h))]
        dsimp only
        rw [show vmax bv (minimax ((make_move g m).2) d bv Val.pinf false).1 = bv by
          rw [vmax_eq_max, max_eq_left hr1le]]
        exact ih best bv (fun m1 hm1 => hms m1 (List.mem_cons_of_mem m hm1))

set_option maxRecDepth 8000 in
/-- C3: from the standard starting position, for every search depth from 1
to 3 and every shuffle of the root move list, the pruned search of
`get_best_move` returns exactly the move and score of the exhaustive
minimax reference over the same move enumeration: the alpha-beta bounds and
the nonstandard root-level bound update change only how much is explored,
never the result.  (Depth 0 is excluded: the source recursion only
terminates for positive depths.) -/
theorem get_best_move_eq_ref_start (d : Nat) (ms : List Move)
    (hd1 : 1 ≤ d) (hd3 : d ≤ 3)
    (hperm : ms.Perm (legal_moves_for initial_game Color.white)) :
    get_best_move initial_game Color.white d ms =
      get_best_move_ref initial_game Color.white d ms := by
  have hpbI : pawns_bounded initial_game 1 6 := by decide
  have hcpw : initial_game.current_player = Color.white := rfl
  have hleg : ∀ m ∈ ms, legal_move_of initial_game Color.white m := by
    intro m hm
    have hm' : m ∈ legal_moves_for initial_game Color.white := hperm.mem_iff.1 hm
    rw [legal_moves_for_eq] at hm'
    obtain ⟨pos, hpos, hm2⟩ := List.mem_flatMap.1 hm'
    rw [moves_at] at hm2
    revert hm2
    cases hp : initial_game.get_piece pos with
    | none => intro hm2; cases hm2
    | some piece =>
      intro hm2
      dsimp only at hm2
      by_cases hc : piece.color = Color.white
      · rw [if_pos hc] at hm2
        obtain ⟨h1, -, -, -⟩ := gvm_spec initial_game pos piece hp m hm2
        exact ⟨piece, h1 ▸ hp, hc, h1 ▸ hm2, h1 ▸ hpos⟩
      · rw [if_neg hc] at hm2
        cases hm2
  have hm32 : max (3 : Int) (1 + 1) = 3 := by decide
  have hundo : ∀ m, legal_move_of initial_game Color.white m →
      undo_move ((make_move initial_game m).2) = (true, initial_game) := by
    intro m hleg1
    obtain ⟨piece, hpiece, hcolor', hmem, hfrom⟩ := hleg1
    have hcolor : piece.color = initial_game.current_player := by rw [hcolor', hcpw]
    exact make_undo_exact initial_game m piece hpiece hcolor hmem
      (white_move_no_promo initial_game m piece 1 6 hpiece hcolor hcpw hmem hfrom hpbI
        (by omega))
  have hstate : ∀ m, legal_move_of initial_game Color.white m → ∀ a b,
      (minimax ((make_move initial_game m).2) (d - 1) a b false).2 =
        (make_move initial_game m).2 := by
    intro m hleg1 a b
    obtain ⟨piece, hpiece, hcolor', hmem, hfrom⟩ := hleg1
    have hcolor : piece.color = initial_game.current_player := by rw [hcolor', hcpw]
    refine minimax_restores (d - 1) (max 3 (1 + 1)) 6 _ a b false ?_ ?_
      (by rw [hm32]; omega) (by omega) (by omega)
    · rw [make_move_player initial_game m piece hpiece hcolor hmem, hcpw]
      rfl
    · exact pawns_bounded_after_white initial_game m piece 1 6 hpiece hcolor hcpw hmem
        hfrom hpbI (by omega)
  have hbounds : ∀ m, legal_move_of initial_game Color.white m → ∀ a b, vlt a b = true →
      (minimax ((make_move initial_game m).2) (d - 1) a b false).1 ≤
        max a (minimax_ref (d - 1) ((make_move initial_game m).2) false) ∧
      min b (minimax_ref (d - 1) ((make_move initial_game m).2) false) ≤
        (minimax ((make_move initial_game m).2) (d - 1) a b false).1 := by
    intro m hleg1 a b hab1
    obtain ⟨piece, hpiece, hcolor', hmem, hfrom⟩ := hleg1
    have hcolor : piece.color = initial_game.current_player := by rw [hcolor', hcpw]
    refine minimax_bounds (d - 1) (max 3 (1 + 1)) 6 _ a b false ?_ ?_
      (by rw [hm32]; omega) (by omega) (by omega) hab1
    · rw [make_move_player initial_game m piece hpiece hcolor hmem, hcpw]
      rfl
    · exact pawns_bounded_after_white initial_game m piece 1 6 hpiece hcolor hcpw hmem
        hfrom hpbI (by omega)
  have key := gbm_white_loop_equiv (d - 1) initial_game hundo hstate hbounds ms none
    Val.ninf hleg
  rw [get_best_move, get_best_move_ref, if_pos rfl, if_pos rfl]
  dsimp only
  rw [key]

/-- C3 witness: depth 1 with the unshuffled root list. -/
theorem get_best_move_eq_ref_start_witness :
    (1 : Nat) ≤ 1 ∧ (1 : Nat) ≤ 3 ∧
    get_best_move initial_game Color.white 1 (legal_moves_for initial_game Color.white) =
      get_best_move_ref initial_game Color.white 1
        (legal_moves_for initial_game Color.white) :=
  ⟨le_rfl, by omega,
   get_best_move_eq_ref_start 1 (legal_moves_for initial_game Color.white) le_rfl
     (by omega) (List.Perm.refl _)⟩
